import Mathlib

/-!
Backend_for_replicate: the training-status gate and the weights pipeline.

A shallow embedding of `src/server.js`, `src/config/weights.js` and
`src/config/s3.js`.  Remote collaborators (the Replicate client, `fetch`,
`tar`, the file system, the S3 `Upload`) are fields of an environment record;
every handler returns its HTTP response together with the ordered list of
collaborator calls it made, so that "never invokes" is a statement about that
list.
-/

namespace Replicate

/-! ## JSON values and JavaScript property access -/

/-- JSON values as produced by `JSON.parse`.  Numbers are kept as integers: the
handlers only test a number for being zero. -/
inductive Json where
  | null : Json
  | bool (b : Bool) : Json
  | num (n : Int) : Json
  | str (s : String) : Json
  | arr (items : List Json) : Json
  | obj (fields : List (String × Json)) : Json

/-- A thrown JavaScript `Error`; the handlers only read its `message`. -/
structure JsError where
  message : String
deriving DecidableEq

/-- JavaScript truthiness of a JSON value. -/
def Json.truthy : Json → Bool
  | .null => false
  | .bool b => b
  | .num n => decide (n ≠ 0)
  | .str s => decide (s ≠ "")
  | .arr _ => true
  | .obj _ => true

/-- JavaScript truthiness of a possibly `undefined` value (`none` is `undefined`). -/
def truthy? : Option Json → Bool
  | none => false
  | some v => v.truthy

/-- Own-property lookup in an object's field list (first binding of the key). -/
def lookupField (k : String) : List (String × Json) → Option Json
  | [] => none
  | (k', v) :: rest => if k' = k then some v else lookupField k rest

/-- The property read `v.k` on a value that is neither `null` nor `undefined`.
Only objects carry the keys the handlers read (`status`, `output`, `weights`,
`processedWeights`, `id`, `filename`); on every other value the read is
`undefined`. -/
def Json.prop (v : Json) (k : String) : Option Json :=
  match v with
  | .obj fs => lookupField k fs
  | _ => none

/-- Optional chaining `o?.k`: `undefined` when `o` is `null` or `undefined`. -/
def optChain (o : Option Json) (k : String) : Option Json :=
  match o with
  | none => none
  | some .null => none
  | some v => v.prop k

/-- Strict equality `o === s` against a string literal. -/
def strictEqStr (o : Option Json) (s : String) : Bool :=
  match o with
  | some (.str t) => decide (t = s)
  | _ => false

/-- Property definition in an object literal: an existing key keeps its place
and takes the new value, a new key is appended. -/
def setField (k : String) (v : Json) : List (String × Json) → List (String × Json)
  | [] => [(k, v)]
  | (k', v') :: rest =>
    if k' = k then (k, v) :: rest else (k', v') :: setField k v rest

/-- Own enumerable fields copied by the spread `...v` of a snapshot. -/
def Json.spread : Json → List (String × Json)
  | .obj fs => fs
  | _ => []

/-- An HTTP response: status code and JSON body. -/
structure HttpResponse where
  status : Nat
  body : Json

/-! ## `GET /api/check-training-status/:id` (server.js 79-120) -/

/-- Collaborator calls made by the status handler. -/
inductive StatusCall where
  | trainingsGet (id : String) : StatusCall
  | processWeights (weightsUrl : Option Json) (modelId : Option Json) : StatusCall

/-- Collaborators of the status handler: `replicate.trainings.get` and
`processWeights`, each either returning or throwing. -/
structure StatusEnv where
  get : String → Except JsError Json
  processWeights : Option Json → Option Json → Except JsError String

/-- The guard of server.js 87-89:
`training.status === 'succeeded' && training.output?.weights && !training.processedWeights`. -/
def needsProcessing (training : Json) : Bool :=
  strictEqStr (training.prop "status") "succeeded"
    && truthy? (optChain (training.prop "output") "weights")
    && !truthy? (training.prop "processedWeights")

/-- The 500 response of the outer `catch` (server.js 113-119). -/
def statusFailure (e : JsError) : HttpResponse :=
  ⟨500, .obj [("error", .str "Erro ao verificar status do treinamento"),
              ("details", .str e.message)]⟩

/-- The handler body after `replicate.trainings.get` returned `training`
(server.js 86-112).  Reading `training.status` on `null` throws a `TypeError`,
which the outer `catch` turns into a 500. -/
def respondToSnapshot (pw : Option Json → Option Json → Except JsError String)
    (training : Json) : HttpResponse × List StatusCall :=
  match training with
  | .null => (statusFailure ⟨"Cannot read properties of null (reading 'status')"⟩, [])
  | _ =>
    if needsProcessing training then
      let weightsUrl := optChain (training.prop "output") "weights"
      let modelId := training.prop "id"
      match pw weightsUrl modelId with
      | .ok modelUrl =>
        (⟨200, .obj (setField "modelUrl" (.str modelUrl)
                  (setField "processedWeights" (.bool true) training.spread))⟩,
         [.processWeights weightsUrl modelId])
      | .error extractError =>
        (⟨200, .obj (setField "extractError" (.str extractError.message) training.spread)⟩,
         [.processWeights weightsUrl modelId])
    else
      (⟨200, training⟩, [])

/-- The whole handler: query the remote service, then answer (server.js 79-120). -/
def checkTrainingStatus (env : StatusEnv) (id : String) : HttpResponse × List StatusCall :=
  match env.get id with
  | .error e => (statusFailure e, [.trainingsGet id])
  | .ok training =>
    let r := respondToSnapshot env.processWeights training
    (r.1, .trainingsGet id :: r.2)

/-- The calls to `processWeights` in a call list. -/
def pwCalls : List StatusCall → List (Option Json × Option Json)
  | [] => []
  | .processWeights w i :: rest => (w, i) :: pwCalls rest
  | .trainingsGet _ :: rest => pwCalls rest

/-! ## POSIX `path` functions used by the sources -/

/-- Split a path at every slash (empty segments kept). -/
def splitSlashAux (cur : List Char) : List Char → List (List Char)
  | [] => [cur.reverse]
  | c :: cs => if c = '/' then cur.reverse :: splitSlashAux [] cs else splitSlashAux (c :: cur) cs

/-- Segments of a path. -/
def splitSlash (cs : List Char) : List (List Char) := splitSlashAux [] cs

/-- Segments glued back together with single slashes. -/
def joinSlash : List (List Char) → List Char
  | [] => []
  | [s] => s
  | s :: rest => s ++ '/' :: joinSlash rest

/-- Node's `normalizeString`: drop empty and `.` segments, let `..` remove the
segment before it, and keep a leading `..` only when `allowAbove` holds.  The
second argument is the stack of kept segments, innermost first. -/
def normalizeSegments (allowAbove : Bool) : List (List Char) → List (List Char) → List (List Char)
  | [], kept => kept.reverse
  | seg :: rest, kept =>
    if seg = [] ∨ seg = ['.'] then normalizeSegments allowAbove rest kept
    else if seg = ['.', '.'] then
      match kept with
      | [] => normalizeSegments allowAbove rest (if allowAbove then [seg] else [])
      | top :: below =>
        if top = ['.', '.'] then
          normalizeSegments allowAbove rest (if allowAbove then seg :: kept else kept)
        else normalizeSegments allowAbove rest below
    else normalizeSegments allowAbove rest (seg :: kept)

/-- Node's `path.posix.normalize`. -/
def posixNormalize (path : String) : String :=
  if path = "" then "."
  else
    let cs := path.data
    let isAbs := decide (cs.head? = some '/')
    let trailing := decide (cs.getLast? = some '/')
    let p := joinSlash (normalizeSegments (!isAbs) (splitSlash cs) [])
    if p = [] then (if isAbs then "/" else if trailing then "./" else ".")
    else String.mk ((if isAbs then ['/'] else []) ++ p ++ (if trailing then ['/'] else []))

/-- Node's `path.posix.join` on string arguments. -/
def pathJoin (parts : List String) : String :=
  let nonEmpty := parts.filter (fun a => decide (a ≠ ""))
  if nonEmpty = [] then "."
  else posixNormalize (String.mk (joinSlash (nonEmpty.map String.data)))

/-- Node's `path.posix.basename` without a suffix argument: trailing slashes
are dropped, then the last segment is returned. -/
def basename (p : String) : String :=
  String.mk
    ((p.data.reverse.dropWhile (fun c => decide (c = '/'))).takeWhile
      (fun c => decide (c ≠ '/'))).reverse

/-- `String.prototype.endsWith`. -/
def endsWith (s suffix : String) : Bool := suffix.data.isSuffixOf s.data

/-! ## The extracted directory and `findSafetensors` (weights.js 60-75) -/

mutual
/-- A file-system node as `statSync` sees it: a directory or anything else. -/
inductive FsNode where
  | file (bytes : List Nat) : FsNode
  | dir (entries : FsEntries) : FsNode
/-- The listing `readdirSync` returns for a directory, in listing order. -/
inductive FsEntries where
  | nil : FsEntries
  | cons (name : String) (node : FsNode) (rest : FsEntries) : FsEntries
end

/-- The recursive search of weights.js 60-75.  `none` is `null`; `if (found)`
is the truthiness test of the returned string. -/
def findSafetensors (dir : String) : FsEntries → Option String
  | .nil => none
  | .cons file (.dir sub) rest =>
    match findSafetensors (pathJoin [dir, file]) sub with
    | some found => if found ≠ "" then some found else findSafetensors dir rest
    | none => findSafetensors dir rest
  | .cons file (.file _) rest =>
    if endsWith file ".safetensors" then some (pathJoin [dir, file])
    else findSafetensors dir rest

/-- Every non-directory file below `dir`, as (path, name), in depth-first
order: entries in listing order, a subdirectory listed completely before its
later siblings. -/
def depthFirstFiles (dir : String) : FsEntries → List (String × String)
  | .nil => []
  | .cons file (.dir sub) rest =>
    depthFirstFiles (pathJoin [dir, file]) sub ++ depthFirstFiles dir rest
  | .cons file (.file _) rest => (pathJoin [dir, file], file) :: depthFirstFiles dir rest

/-- The first file in depth-first order whose name ends with `.safetensors`. -/
def firstSafetensors (dir : String) (t : FsEntries) : Option String :=
  (((depthFirstFiles dir t).filter (fun e => endsWith e.2 ".safetensors")).head?).map Prod.fst

/-! ## `uploadLargeFileToS3` and `uploadToS3` (config/s3.js) -/

/-- How a template literal renders an environment variable: an unset one
renders as `undefined`. -/
def envStr : Option String → String
  | some s => s
  | none => "undefined"

/-- The storage configuration read from `process.env`. -/
structure S3Config where
  bucket : Option String
  region : Option String

/-- The public address built at s3.js 52 and 104. -/
def publicUrl (cfg : S3Config) (fileName : String) : String :=
  "https://" ++ envStr cfg.bucket ++ ".s3." ++ envStr cfg.region ++ ".amazonaws.com/" ++ fileName

/-- `uploadLargeFileToS3` (s3.js 25-60); `uploadDone key body` is
`new Upload(...).done()`. A rejected upload is logged and re-thrown. -/
def uploadLargeFileToS3 (cfg : S3Config) (uploadDone : String → List Nat → Except JsError Unit)
    (buffer : List Nat) (fileName : String) : Except JsError String :=
  match uploadDone fileName buffer with
  | .error e => .error e
  | .ok _ => .ok (publicUrl cfg fileName)

/-- `uploadToS3` (s3.js 68-112): the local file must exist, is sized with
`statSync`, streamed with `Upload.done()`, and the public address returned. -/
def uploadToS3 (cfg : S3Config) (existsSync : String → Bool)
    (statSync : String → Except JsError Nat)
    (uploadStream : String → String → Except JsError Unit)
    (filePath fileName : String) : Except JsError String :=
  if existsSync filePath then
    match statSync filePath with
    | .error e => .error e
    | .ok _ =>
      match uploadStream filePath fileName with
      | .error e => .error e
      | .ok _ => .ok (publicUrl cfg fileName)
  else .error ⟨"Arquivo não encontrado: " ++ filePath⟩

/-! ## `processWeights` (config/weights.js 21-98) -/

/-- The part of a `fetch` response the pipeline reads. -/
structure FetchResponse where
  ok : Bool
  status : Nat

/-- Collaborators of `processWeights`.  `tarExtract file cwd` returns the
content of `cwd` as the directory search will see it once extraction is over.
`pathTypeError v` is the `TypeError` `path.join` throws for a non-string `v`. -/
structure WeightsEnv where
  dirname : String
  existsSync : String → Bool
  mkdirSync : String → Except JsError Unit
  fetch : Option Json → Except JsError FetchResponse
  pipeline : String → Except JsError Unit
  tarExtract : String → String → Except JsError FsEntries
  readFileSync : String → Except JsError (List Nat)
  uploadDone : String → List Nat → Except JsError Unit
  pathTypeError : Option Json → JsError
  s3 : S3Config

/-- Collaborator calls made by `processWeights`, in call order. -/
inductive WeightsCall where
  | mkdirSync (dir : String) : WeightsCall
  | createWriteStream (file : String) : WeightsCall
  | fetch (url : Option Json) : WeightsCall
  | pipeline (file : String) : WeightsCall
  | tarExtract (file cwd : String) : WeightsCall
  | findSafetensors (dir : String) : WeightsCall
  | readFileSync (file : String) : WeightsCall
  | uploadLargeFileToS3 (key : String) : WeightsCall

/-- Sequencing of awaited steps: a throw ends the run with the calls made so
far, a value is handed to the next step. -/
def andThen {α β γ : Type} (r : Except JsError α × List γ)
    (f : α → Except JsError β × List γ) : Except JsError β × List γ :=
  match r.1 with
  | .error e => (.error e, r.2)
  | .ok a => ((f a).1, r.2 ++ (f a).2)

/-- `if (!fs.existsSync(d)) fs.mkdirSync(d, ...)` (weights.js 30-35). -/
def ensureDir (env : WeightsEnv) (d : String) : Except JsError Unit × List WeightsCall :=
  if env.existsSync d then (.ok (), []) else (env.mkdirSync d, [.mkdirSync d])

/-- The scratch root `path.join(__dirname, '..', 'temp')` (weights.js 26). -/
def tempDir (env : WeightsEnv) : String := pathJoin [env.dirname, "..", "temp"]

/-- The extraction directory `path.join(tempDir, modelId)` (weights.js 27). -/
def extractDir (env : WeightsEnv) (modelId : String) : String := pathJoin [tempDir env, modelId]

/-- The archive path `path.join(tempDir, modelId + '.tar')` (weights.js 38). -/
def tarPath (env : WeightsEnv) (modelId : String) : String :=
  pathJoin [tempDir env, modelId ++ ".tar"]

/-- The destination key of weights.js 90. -/
def destinationKey (modelId : String) : String := "models/" ++ modelId ++ "/lora.safetensors"

/-- Working directories (weights.js 30-35). -/
def stageSetup (env : WeightsEnv) (modelId : String) : Except JsError Unit × List WeightsCall :=
  andThen (ensureDir env (tempDir env)) (fun _ => ensureDir env (extractDir env modelId))

/-- Download (weights.js 38-48): open the write stream, `fetch`, refuse a
response that is not ok, stream the body into the archive file. -/
def stageFetch (env : WeightsEnv) (weightsUrl : Option Json) (modelId : String) :
    Except JsError Unit × List WeightsCall :=
  andThen (env.fetch weightsUrl, [.createWriteStream (tarPath env modelId), .fetch weightsUrl])
    (fun response =>
      if response.ok then (env.pipeline (tarPath env modelId), [.pipeline (tarPath env modelId)])
      else (.error ⟨"HTTP error! status: " ++ toString response.status⟩, []))

/-- Extraction (weights.js 53-56). -/
def stageExtract (env : WeightsEnv) (modelId : String) :
    Except JsError FsEntries × List WeightsCall :=
  (env.tarExtract (tarPath env modelId) (extractDir env modelId),
   [.tarExtract (tarPath env modelId) (extractDir env modelId)])

/-- Location (weights.js 78-81): `if (!loraPath) throw ...`. -/
def stageLocate (env : WeightsEnv) (modelId : String) (tree : FsEntries) :
    Except JsError String × List WeightsCall :=
  match findSafetensors (extractDir env modelId) tree with
  | some loraPath =>
    if loraPath ≠ "" then (.ok loraPath, [.findSafetensors (extractDir env modelId)])
    else (.error ⟨"Arquivo .safetensors não encontrado"⟩, [.findSafetensors (extractDir env modelId)])
  | none => (.error ⟨"Arquivo .safetensors não encontrado"⟩, [.findSafetensors (extractDir env modelId)])

/-- Upload (weights.js 85-93): read the located file and send it under the
job's destination key. -/
def stageUpload (env : WeightsEnv) (modelId : String) (loraPath : String) :
    Except JsError String × List WeightsCall :=
  andThen (env.readFileSync loraPath, [.readFileSync loraPath])
    (fun fileBuffer =>
      (uploadLargeFileToS3 env.s3 env.uploadDone fileBuffer (destinationKey modelId),
       [.uploadLargeFileToS3 (destinationKey modelId)]))

/-- The pipeline of weights.js 21-98.  `path.join(tempDir, modelId)` throws a
`TypeError` unless `modelId` is a string; every error is logged and re-thrown
by the `catch` at lines 94-97 (`throw error`). -/
def processWeights (env : WeightsEnv) (weightsUrl modelId : Option Json) :
    Except JsError String × List WeightsCall :=
  match modelId with
  | some (.str id) =>
    andThen (stageSetup env id) (fun _ =>
    andThen (stageFetch env weightsUrl id) (fun _ =>
    andThen (stageExtract env id) (fun tree =>
    andThen (stageLocate env id tree) (fun loraPath =>
    stageUpload env id loraPath))))
  | other => (.error (env.pathTypeError other), [])

/-- The status handler wired to the real pipeline. -/
def statusEnvOf (get : String → Except JsError Json) (env : WeightsEnv) : StatusEnv :=
  ⟨get, fun w i => (processWeights env w i).1⟩

/-! ## Sequential polling of the status route -/

/-- Whether a run returned rather than threw. -/
def succeeded {α : Type} : Except JsError α → Bool
  | .ok _ => true
  | .error _ => false

/-- The number of `processWeights` runs one poll of job `id` completes
successfully. -/
def pollSuccesses (env : StatusEnv) (id : String) : Nat :=
  ((pwCalls (checkTrainingStatus env id).2).filter
    (fun c => succeeded (env.processWeights c.1 c.2))).length

/-- One poll as a step on the running count of successful pipeline runs.  The
handler keeps nothing between requests, so the count is the only thing a poll
changes. -/
def pollStep (env : StatusEnv) (id : String) (completed : Nat) : Nat :=
  completed + pollSuccesses env id

/-- The count after `n` sequential polls of job `id`, starting from none. -/
def pollRun (env : StatusEnv) (id : String) : Nat → Nat
  | 0 => 0
  | n + 1 => pollStep env id (pollRun env id n)

/-! ## `createImagesZip`, `POST /api/start-training`, `POST /api/upload-images` -/

/-- The `imageFiles` field of a start-training body: absent, `null`, or a JSON
array of file references. -/
inductive ImageFiles where
  | missing : ImageFiles
  | null : ImageFiles
  | list (files : List Json) : ImageFiles

/-- A start-training request body: the image set and the remaining fields. -/
structure TrainingRequest where
  imageFiles : ImageFiles
  params : List (String × Json)

/-- Collaborators of the start-training route.  `existsSync` answers while the
bundle is built, `zipExists` once it has been written.  `entryName p` is the
name the archive library (adm-zip) gives the entry of the local file `p`, its
base name. -/
structure TrainEnv where
  uploadsDir : String
  now : Nat
  existsSync : String → Bool
  addLocalFile : String → Except JsError Unit
  entryName : String → String
  writeZip : String → Finset String → Except JsError Unit
  zipExists : String → Bool
  statSync : String → Except JsError Nat
  uploadStream : String → String → Except JsError Unit
  trainingsCreate : List (String × Json) → String → Except JsError Json
  pathTypeError : Option Json → JsError
  s3 : S3Config

/-- Collaborator calls made by the start-training route, in call order.
`writeZip zipPath entries` carries the names of the entries the archive holds
when it is written. -/
inductive TrainCall where
  | createImagesZip (files : List Json) : TrainCall
  | addLocalFile (file : String) : TrainCall
  | writeZip (zipPath : String) (entries : Finset String) : TrainCall
  | uploadToS3 (filePath key : String) : TrainCall
  | trainingsCreate (zipUrl : String) : TrainCall

/-- The `forEach` of server.js 58-66: a reference whose file exists under the
uploads directory is added, one whose file is missing is skipped with a
warning.  Returns the local files handed to `zip.addLocalFile`, in call
order. -/
def addFiles (env : TrainEnv) : List Json → Except JsError (List String) × List TrainCall
  | [] => (.ok [], [])
  | file :: rest =>
    match file with
    | .null => (.error ⟨"Cannot read properties of null (reading 'filename')"⟩, [])
    | _ =>
      match file.prop "filename" with
      | some (.str name) =>
        if env.existsSync (pathJoin [env.uploadsDir, basename name]) then
          match env.addLocalFile (pathJoin [env.uploadsDir, basename name]) with
          | .error e => (.error e, [.addLocalFile (pathJoin [env.uploadsDir, basename name])])
          | .ok _ =>
            (((addFiles env rest).1).map
                (fun added => pathJoin [env.uploadsDir, basename name] :: added),
             .addLocalFile (pathJoin [env.uploadsDir, basename name]) :: (addFiles env rest).2)
        else addFiles env rest
      | other => (.error (env.pathTypeError other), [])

/-- The archive name of server.js 52. -/
def zipName (env : TrainEnv) : String := "training_" ++ toString env.now ++ ".zip"

/-- The archive path of server.js 53. -/
def zipPath (env : TrainEnv) : String := pathJoin [env.uploadsDir, zipName env]

/-- The entries of the archive after the local files `added` were handed to
`zip.addLocalFile`.  The archive keeps one entry per entry name (adding a name
again replaces the entry) and is written sorted by name, so its content is the
set of names: neither the call order nor a repeated call shows in it. -/
def archiveEntries (env : TrainEnv) (added : List String) : Finset String :=
  (added.map env.entryName).toFinset

/-- `createImagesZip` (server.js 49-76): returns `zipPath` and `zipName`. -/
def createImagesZip (env : TrainEnv) (files : List Json) :
    Except JsError (String × String) × List TrainCall :=
  andThen (addFiles env files) (fun added =>
    andThen (env.writeZip (zipPath env) (archiveEntries env added),
             [.writeZip (zipPath env) (archiveEntries env added)])
      (fun _ => (.ok (zipPath env, zipName env), [])))

/-- The 400 response of server.js 172-175. -/
def insufficientImages (received : Nat) : HttpResponse :=
  ⟨400, .obj [("error", .str "Número insuficiente de imagens"),
              ("details", .str ("São necessárias pelo menos 5 imagens. Recebidas: "
                                  ++ toString received))]⟩

/-- The 500 response of server.js 222-228. -/
def trainingFailure (e : JsError) : HttpResponse :=
  ⟨500, .obj [("error", .str "Erro ao iniciar o treinamento"), ("details", .str e.message)]⟩

/-- Bundle, upload, submit (server.js 178-221).  The hyper-parameter parsing
of lines 195-208 happens inside `trainingsCreate`. -/
def submitTraining (env : TrainEnv) (params : List (String × Json)) (files : List Json) :
    Except JsError Json × List TrainCall :=
  andThen ((createImagesZip env files).1, .createImagesZip files :: (createImagesZip env files).2)
    (fun zip =>
      andThen (uploadToS3 env.s3 env.zipExists env.statSync env.uploadStream zip.1
                  ("training-data/" ++ zip.2),
               [.uploadToS3 zip.1 ("training-data/" ++ zip.2)])
        (fun zipUrl => (env.trainingsCreate params zipUrl, [.trainingsCreate zipUrl])))

/-- `POST /api/start-training` (server.js 150-229). -/
def startTraining (env : TrainEnv) (req : TrainingRequest) : HttpResponse × List TrainCall :=
  match req.imageFiles with
  | .missing => (insufficientImages 0, [])
  | .null => (insufficientImages 0, [])
  | .list files =>
    if files.length < 5 then (insufficientImages files.length, [])
    else
      match (submitTraining env req.params files).1 with
      | .ok training => (⟨200, training⟩, (submitTraining env req.params files).2)
      | .error e => (trainingFailure e, (submitTraining env req.params files).2)

/-- A file received by multer. -/
structure UploadedFile where
  filename : String
  path : String

/-- The 400 response of server.js 130-133. -/
def insufficientUploads : HttpResponse :=
  ⟨400, .obj [("error", .str "Número insuficiente de imagens"),
              ("details", .str "São necessárias pelo menos 5 imagens")]⟩

/-- `POST /api/upload-images` (server.js 123-147); `none` is an absent
`req.files`. -/
def uploadImages (files : Option (List UploadedFile)) : HttpResponse :=
  match files with
  | none => insufficientUploads
  | some fs =>
    if fs.length < 5 then insufficientUploads
    else ⟨200, .obj [("files", .arr (fs.map (fun f =>
            .obj [("filename", .str f.filename), ("path", .str f.path)])))]⟩

/-- The `error` text of a response body. -/
def errorText (r : HttpResponse) : Option String :=
  match r.body.prop "error" with
  | some (.str s) => some s
  | _ => none

/-! ## Reading a pipeline trace -/

/-- The steps of `processWeights`, in execution order. -/
inductive Stage where
  | setup : Stage
  | fetch : Stage
  | extract : Stage
  | locate : Stage
  | upload : Stage
deriving DecidableEq

/-- Position of a stage in the pipeline. -/
def Stage.rank : Stage → Nat
  | .setup => 0
  | .fetch => 1
  | .extract => 2
  | .locate => 3
  | .upload => 4

/-- The stage a collaborator call belongs to. -/
def WeightsCall.stage : WeightsCall → Stage
  | .mkdirSync _ => .setup
  | .createWriteStream _ => .fetch
  | .fetch _ => .fetch
  | .pipeline _ => .fetch
  | .tarExtract _ _ => .extract
  | .findSafetensors _ => .locate
  | .readFileSync _ => .upload
  | .uploadLargeFileToS3 _ => .upload

/-- The destination keys of the `uploadLargeFileToS3` calls in a trace. -/
def uploadKeys : List WeightsCall → List String
  | [] => []
  | .uploadLargeFileToS3 key :: rest => key :: uploadKeys rest
  | _ :: rest => uploadKeys rest

/-- The stage a failed run stopped in: the stage of the last call it made. -/
def failingStage (run : Except JsError String × List WeightsCall) : Option Stage :=
  match run.1 with
  | .ok _ => none
  | .error _ => run.2.getLast?.map WeightsCall.stage

/-! ## Concrete inputs used by the evaluated statements below -/

/-- A job that is still running. -/
def runningJob : List (String × Json) :=
  [("id", .str "j1"), ("status", .str "processing"), ("output", .null)]

/-- A finished job with an output archive, as the remote service reports it. -/
def finishedJob : List (String × Json) :=
  [("id", .str "j1"), ("status", .str "succeeded"),
   ("output", .obj [("weights", .str "https://replicate.delivery/out/trained_model.tar")])]

/-- A remote service reporting `runningJob`; the pipeline would succeed. -/
def runningEnv : StatusEnv :=
  ⟨fun _ => .ok (.obj runningJob), fun _ _ => .ok "https://b.s3.r.amazonaws.com/models/j1/lora.safetensors"⟩

/-- A remote service reporting `finishedJob` on every poll; the pipeline succeeds. -/
def finishedEnv : StatusEnv :=
  ⟨fun _ => .ok (.obj finishedJob), fun _ _ => .ok "https://b.s3.r.amazonaws.com/models/j1/lora.safetensors"⟩

/-- A remote service reporting `finishedJob`; the pipeline throws. -/
def brokenPipelineEnv : StatusEnv :=
  ⟨fun _ => .ok (.obj finishedJob), fun _ _ => .error ⟨"HTTP error! status: 404"⟩⟩

/-- An archive with the weights nested below `output/`, after a text file. -/
def nestedTree : FsEntries :=
  .cons "output" (.dir (.cons "README.md" (.file [35])
      (.cons "flux_train" (.dir (.cons "lora.safetensors" (.file [1, 2, 3]) .nil)) .nil)))
    (.cons "other.safetensors" (.file [9]) .nil)

/-- An archive without any weights file; one directory carries the suffix. -/
def emptyHandedTree : FsEntries :=
  .cons "output" (.dir (.cons "README.md" (.file [35]) .nil))
    (.cons "backup.safetensors" (.dir (.cons "config.yaml" (.file [7]) .nil)) .nil)

/-- A machine on which every collaborator succeeds and the archive expands to
`tree`. -/
def healthyEnv (tree : FsEntries) : WeightsEnv where
  dirname := "/app/config"
  existsSync := fun _ => false
  mkdirSync := fun _ => .ok ()
  fetch := fun _ => .ok ⟨true, 200⟩
  pipeline := fun _ => .ok ()
  tarExtract := fun _ _ => .ok tree
  readFileSync := fun _ => .ok [1, 2, 3]
  uploadDone := fun _ _ => .ok ()
  pathTypeError := fun _ => ⟨"The path argument must be of type string"⟩
  s3 := ⟨some "lora-bucket", some "eu-west-1"⟩

/-- As `healthyEnv`, but the disk is full when `tar` extracts. -/
def extractFailsEnv : WeightsEnv :=
  { healthyEnv nestedTree with
    tarExtract := fun _ _ => .error ⟨"ENOSPC: no space left on device"⟩ }

/-- As `healthyEnv`, but the upload is rejected with the same message. -/
def uploadFailsEnv : WeightsEnv :=
  { healthyEnv nestedTree with
    uploadDone := fun _ _ => .error ⟨"ENOSPC: no space left on device"⟩ }

/-- As `healthyEnv`, but the archive URL answers 404. -/
def fetchFailsEnv : WeightsEnv :=
  { healthyEnv nestedTree with fetch := fun _ => .ok ⟨false, 404⟩ }

/-- The archive URL of `finishedJob`. -/
def finishedWeights : Option Json :=
  some (.str "https://replicate.delivery/out/trained_model.tar")

/-- An archive whose only weights file sits at the top level. -/
def flatTree : FsEntries :=
  .cons "model.safetensors" (.file [4, 5]) .nil

/-- The local path server.js 59 computes for a reference with a string
`filename`; `none` for a reference without one. -/
def refPath (env : TrainEnv) (file : Json) : Option String :=
  match file.prop "filename" with
  | some (.str name) => some (pathJoin [env.uploadsDir, basename name])
  | _ => none

/-- The local paths an image set refers to, in order. -/
def referencedPaths (env : TrainEnv) (files : List Json) : List String :=
  files.filterMap (refPath env)

/-- The contents of the archives written in a trace, each the set of its
entry names. -/
def writtenBundles : List TrainCall → List (Finset String)
  | [] => []
  | .writeZip _ entries :: rest => entries :: writtenBundles rest
  | _ :: rest => writtenBundles rest

/-- A reference as `/api/upload-images` hands it out. -/
def imageRef (name : String) : Json :=
  .obj [("filename", .str name), ("path", .str ("/app/uploads/" ++ name))]

/-- Five references. -/
def fiveRefs : List Json :=
  [imageRef "a.png", imageRef "b.png", imageRef "c.png", imageRef "d.png", imageRef "e.png"]

/-- Five references, two of them to the same uploaded file. -/
def repeatedRefs : List Json :=
  [imageRef "a.png", imageRef "b.png", imageRef "a.png", imageRef "c.png", imageRef "d.png"]

/-- Four references. -/
def fourRefs : List Json :=
  [imageRef "a.png", imageRef "b.png", imageRef "c.png", imageRef "d.png"]

/-- A server on which every collaborator succeeds and every upload is on disk. -/
def studioEnv : TrainEnv where
  uploadsDir := "/app/uploads"
  now := 1700000000000
  existsSync := fun _ => true
  addLocalFile := fun _ => .ok ()
  entryName := basename
  writeZip := fun _ _ => .ok ()
  zipExists := fun _ => true
  statSync := fun _ => .ok 1024
  uploadStream := fun _ _ => .ok ()
  trainingsCreate := fun _ _ => .ok (.obj [("id", .str "j1"), ("status", .str "starting")])
  pathTypeError := fun _ => ⟨"The path argument must be of type string"⟩
  s3 := ⟨some "lora-bucket", some "eu-west-1"⟩

/-- As `studioEnv`, but `c.png` is no longer in the uploads directory. -/
def gapEnv : TrainEnv :=
  { studioEnv with existsSync := fun p => decide (p ≠ "/app/uploads/c.png") }

/-! ## Scratch space of a job -/

/-- A job identifier as a plain name: non-empty and without a path separator. -/
def plainName (id : String) : Bool := decide (id ≠ "") && decide ('/' ∉ id.data)

/-- Whether `p` is the directory `dir` itself or a path beneath it. -/
def within (dir p : String) : Bool :=
  decide (p = dir)
    || (if dir.data.getLast? = some '/' then dir.data else dir.data ++ ['/']).isPrefixOf p.data

/-- Whether `p` is a working path of job `id`: its archive path
(weights.js 38) or its extraction directory (weights.js 27) with everything
beneath it. -/
def usesPath (env : WeightsEnv) (id p : String) : Bool :=
  decide (p = tarPath env id) || within (extractDir env id) p

/-- A path segment that `normalizeString` keeps as it is: not empty, not `.`,
not `..`, and free of slashes. -/
def Ordinary (s : List Char) : Prop := s ≠ [] ∧ s ≠ ['.'] ∧ s ≠ ['.', '.'] ∧ '/' ∉ s

/-- Segments in normal form: a leading run of `..` (only when `allowAbove`),
then ordinary segments. -/
def NormalSegs (allowAbove : Bool) : List (List Char) → Prop
  | [] => True
  | s :: rest =>
    (s = ['.', '.'] ∧ allowAbove = true ∧ NormalSegs allowAbove rest)
      ∨ (Ordinary s ∧ ∀ t ∈ rest, Ordinary t)

/-- The same form for the stack of kept segments, innermost first. -/
def StackOK (allowAbove : Bool) : List (List Char) → Prop
  | [] => True
  | t :: below =>
    (t = ['.', '.'] ∧ allowAbove = true ∧ ∀ u ∈ below, u = ['.', '.'])
      ∨ (Ordinary t ∧ StackOK allowAbove below)

/-- A normalized path that is not the root and has no trailing slash. -/
def NormalPath (p : String) : Prop :=
  ∃ (isAbs : Bool) (segs : List (List Char)), segs ≠ [] ∧ NormalSegs (!isAbs) segs
    ∧ p.data = (if isAbs then ['/'] else []) ++ joinSlash segs

/-! ## Theorems -/

/-! ### Object fields -/

theorem lookupField_setField_same (k : String) (v : Json) (fs : List (String × Json)) :
    lookupField k (setField k v fs) = some v := by
  induction fs with
  | nil => simp [setField, lookupField]
  | cons hd tl ih =>
    obtain ⟨k', v'⟩ := hd
    by_cases h : k' = k
    · simp [setField, lookupField, h]
    · simp [setField, lookupField, h, ih]

theorem lookupField_setField_other (k j : String) (v : Json) (fs : List (String × Json))
    (h : j ≠ k) : lookupField j (setField k v fs) = lookupField j fs := by
  induction fs with
  | nil => simp [setField, lookupField, Ne.symm h]
  | cons hd tl ih =>
    obtain ⟨k', v'⟩ := hd
    by_cases hk : k' = k
    · subst hk
      simp [setField, lookupField, Ne.symm h]
    · by_cases hj : k' = j
      · subst hj
        simp [setField, lookupField, hk]
      · simp [setField, lookupField, hk, hj, ih]

/-! ### The status gate -/

theorem respondToSnapshot_closed (pw : Option Json → Option Json → Except JsError String)
    (fields : List (String × Json)) (h : needsProcessing (.obj fields) = false) :
    respondToSnapshot pw (.obj fields) = (⟨200, .obj fields⟩, []) := by
  simp [respondToSnapshot, h]

theorem respondToSnapshot_open (pw : Option Json → Option Json → Except JsError String)
    (fields : List (String × Json)) (h : needsProcessing (.obj fields) = true) :
    respondToSnapshot pw (.obj fields) =
      match pw (optChain (lookupField "output" fields) "weights") (lookupField "id" fields) with
      | .ok modelUrl =>
        (⟨200, .obj (setField "modelUrl" (.str modelUrl)
                  (setField "processedWeights" (.bool true) fields))⟩,
         [.processWeights (optChain (lookupField "output" fields) "weights")
            (lookupField "id" fields)])
      | .error extractError =>
        (⟨200, .obj (setField "extractError" (.str extractError.message) fields)⟩,
         [.processWeights (optChain (lookupField "output" fields) "weights")
            (lookupField "id" fields)]) := by
  simp only [respondToSnapshot, h, if_true, Json.prop, Json.spread]

/-- C1: when the remote snapshot's status is not `succeeded`, or its output
weights URL is absent, or its `processedWeights` flag is already set, the
status handler makes no call to `processWeights` and answers 200 with exactly
the snapshot, so every property read (`processedWeights`, `modelUrl` and
`extractError` included) gives what the snapshot gives. -/
theorem check_status_passes_snapshot_through (env : StatusEnv) (id : String)
    (fields : List (String × Json)) (hget : env.get id = .ok (.obj fields))
    (hgate : strictEqStr (lookupField "status" fields) "succeeded" = false
      ∨ truthy? (optChain (lookupField "output" fields) "weights") = false
      ∨ truthy? (lookupField "processedWeights" fields) = true) :
    pwCalls (checkTrainingStatus env id).2 = []
      ∧ (checkTrainingStatus env id).1.status = 200
      ∧ (checkTrainingStatus env id).1.body = .obj fields
      ∧ ∀ k, (checkTrainingStatus env id).1.body.prop k = lookupField k fields := by
  have hclosed : needsProcessing (.obj fields) = false := by
    simp only [needsProcessing, Json.prop]
    rcases hgate with h | h | h <;> simp [h]
  simp [checkTrainingStatus, hget, respondToSnapshot_closed _ _ hclosed, pwCalls, Json.prop]

theorem check_status_passes_snapshot_through_witness :
    pwCalls (checkTrainingStatus runningEnv "j1").2 = []
      ∧ (checkTrainingStatus runningEnv "j1").1.status = 200
      ∧ (checkTrainingStatus runningEnv "j1").1.body = .obj runningJob
      ∧ ∀ k, (checkTrainingStatus runningEnv "j1").1.body.prop k = lookupField k runningJob :=
  check_status_passes_snapshot_through runningEnv "j1" runningJob rfl (Or.inl (by decide))

/-- C2: for a snapshot with status `succeeded`, a present output weights URL
and an unset `processedWeights` flag, when `processWeights(output.weights, id)`
returns the address `u` the handler answers 200 with the snapshot's fields,
`processedWeights` set to `true` and `modelUrl` equal to `u`; every other
field reads as in the snapshot, and `processWeights` was called exactly once,
with the snapshot's weights URL and id. -/
theorem check_status_success_augments_snapshot (env : StatusEnv) (id u : String)
    (fields : List (String × Json)) (hget : env.get id = .ok (.obj fields))
    (hstatus : strictEqStr (lookupField "status" fields) "succeeded" = true)
    (hweights : truthy? (optChain (lookupField "output" fields) "weights") = true)
    (hflag : truthy? (lookupField "processedWeights" fields) = false)
    (hpw : env.processWeights (optChain (lookupField "output" fields) "weights")
      (lookupField "id" fields) = .ok u) :
    (checkTrainingStatus env id).1.status = 200
      ∧ (checkTrainingStatus env id).1.body
          = .obj (setField "modelUrl" (.str u) (setField "processedWeights" (.bool true) fields))
      ∧ (checkTrainingStatus env id).1.body.prop "processedWeights" = some (.bool true)
      ∧ (checkTrainingStatus env id).1.body.prop "modelUrl" = some (.str u)
      ∧ (∀ k, k ≠ "processedWeights" → k ≠ "modelUrl" →
          (checkTrainingStatus env id).1.body.prop k = lookupField k fields)
      ∧ pwCalls (checkTrainingStatus env id).2
          = [(optChain (lookupField "output" fields) "weights", lookupField "id" fields)] := by
  have hopen : needsProcessing (.obj fields) = true := by
    simp [needsProcessing, Json.prop, hstatus, hweights, hflag]
  have hresp := respondToSnapshot_open env.processWeights fields hopen
  rw [hpw] at hresp
  have hrun : checkTrainingStatus env id
      = (⟨200, .obj (setField "modelUrl" (.str u)
            (setField "processedWeights" (.bool true) fields))⟩,
         [.trainingsGet id, .processWeights (optChain (lookupField "output" fields) "weights")
            (lookupField "id" fields)]) := by
    simp only [checkTrainingStatus, hget, hresp]
  rw [hrun]
  refine ⟨rfl, rfl, ?_, ?_, ?_, rfl⟩
  · show lookupField "processedWeights" (setField "modelUrl" _ (setField "processedWeights" _ fields)) = _
    rw [lookupField_setField_other _ _ _ _ (by decide), lookupField_setField_same]
  · exact lookupField_setField_same _ _ _
  · intro k h1 h2
    show lookupField k (setField "modelUrl" _ (setField "processedWeights" _ fields)) = _
    rw [lookupField_setField_other _ _ _ _ h2, lookupField_setField_other _ _ _ _ h1]

theorem check_status_success_augments_snapshot_witness :
    (checkTrainingStatus finishedEnv "j1").1.status = 200
      ∧ (checkTrainingStatus finishedEnv "j1").1.body
          = .obj (setField "modelUrl" (.str "https://b.s3.r.amazonaws.com/models/j1/lora.safetensors")
              (setField "processedWeights" (.bool true) finishedJob))
      ∧ (checkTrainingStatus finishedEnv "j1").1.body.prop "processedWeights" = some (.bool true)
      ∧ (checkTrainingStatus finishedEnv "j1").1.body.prop "modelUrl"
          = some (.str "https://b.s3.r.amazonaws.com/models/j1/lora.safetensors")
      ∧ (∀ k, k ≠ "processedWeights" → k ≠ "modelUrl" →
          (checkTrainingStatus finishedEnv "j1").1.body.prop k = lookupField k finishedJob)
      ∧ pwCalls (checkTrainingStatus finishedEnv "j1").2
          = [(optChain (lookupField "output" finishedJob) "weights", lookupField "id" finishedJob)] :=
  check_status_success_augments_snapshot finishedEnv "j1"
    "https://b.s3.r.amazonaws.com/models/j1/lora.safetensors" finishedJob rfl
    (by decide) (by decide) (by decide) rfl

/-- C3: for a snapshot with status `succeeded`, a present output weights URL
and an unset `processedWeights` flag, when `processWeights` throws `e` the
handler answers with the snapshot's fields plus `extractError = e.message` and
nothing else: every other field reads as in the snapshot, so
`processedWeights` stays falsy and `modelUrl` is whatever the snapshot had
(absent when the snapshot has none). -/
theorem check_status_failure_is_never_reported_processed (env : StatusEnv) (id : String)
    (e : JsError) (fields : List (String × Json)) (hget : env.get id = .ok (.obj fields))
    (hstatus : strictEqStr (lookupField "status" fields) "succeeded" = true)
    (hweights : truthy? (optChain (lookupField "output" fields) "weights") = true)
    (hflag : truthy? (lookupField "processedWeights" fields) = false)
    (hpw : env.processWeights (optChain (lookupField "output" fields) "weights")
      (lookupField "id" fields) = .error e) :
    (checkTrainingStatus env id).1.body = .obj (setField "extractError" (.str e.message) fields)
      ∧ (checkTrainingStatus env id).1.body.prop "extractError" = some (.str e.message)
      ∧ (∀ k, k ≠ "extractError" →
          (checkTrainingStatus env id).1.body.prop k = lookupField k fields)
      ∧ truthy? ((checkTrainingStatus env id).1.body.prop "processedWeights") = false
      ∧ (checkTrainingStatus env id).1.body.prop "processedWeights" ≠ some (.bool true)
      ∧ (checkTrainingStatus env id).1.body.prop "modelUrl" = lookupField "modelUrl" fields
      ∧ (lookupField "modelUrl" fields = none →
          (checkTrainingStatus env id).1.body.prop "modelUrl" = none) := by
  have hopen : needsProcessing (.obj fields) = true := by
    simp [needsProcessing, Json.prop, hstatus, hweights, hflag]
  have hresp := respondToSnapshot_open env.processWeights fields hopen
  rw [hpw] at hresp
  have hother : ∀ k, k ≠ "extractError" →
      lookupField k (setField "extractError" (.str e.message) fields) = lookupField k fields :=
    fun k hk => lookupField_setField_other _ _ _ _ hk
  have hrun : checkTrainingStatus env id
      = (⟨200, .obj (setField "extractError" (.str e.message) fields)⟩,
         [.trainingsGet id, .processWeights (optChain (lookupField "output" fields) "weights")
            (lookupField "id" fields)]) := by
    simp only [checkTrainingStatus, hget, hresp]
  rw [hrun]
  refine ⟨rfl, lookupField_setField_same _ _ _, hother, ?_, ?_, hother _ (by decide), ?_⟩
  · show truthy? (lookupField "processedWeights" (setField "extractError" _ fields)) = false
    rw [hother _ (by decide)]; exact hflag
  · show lookupField "processedWeights" (setField "extractError" _ fields) ≠ _
    rw [hother _ (by decide)]
    intro hset
    rw [hset] at hflag
    simp [truthy?, Json.truthy] at hflag
  · intro hnone
    show lookupField "modelUrl" (setField "extractError" _ fields) = none
    rw [hother _ (by decide)]; exact hnone

theorem check_status_failure_is_never_reported_processed_witness :
    (checkTrainingStatus brokenPipelineEnv "j1").1.body
        = .obj (setField "extractError" (.str "HTTP error! status: 404") finishedJob)
      ∧ (checkTrainingStatus brokenPipelineEnv "j1").1.body.prop "extractError"
          = some (.str "HTTP error! status: 404")
      ∧ (∀ k, k ≠ "extractError" →
          (checkTrainingStatus brokenPipelineEnv "j1").1.body.prop k = lookupField k finishedJob)
      ∧ truthy? ((checkTrainingStatus brokenPipelineEnv "j1").1.body.prop "processedWeights") = false
      ∧ (checkTrainingStatus brokenPipelineEnv "j1").1.body.prop "processedWeights"
          ≠ some (.bool true)
      ∧ (checkTrainingStatus brokenPipelineEnv "j1").1.body.prop "modelUrl"
          = lookupField "modelUrl" finishedJob
      ∧ (lookupField "modelUrl" finishedJob = none →
          (checkTrainingStatus brokenPipelineEnv "j1").1.body.prop "modelUrl" = none) :=
  check_status_failure_is_never_reported_processed brokenPipelineEnv "j1"
    ⟨"HTTP error! status: 404"⟩ finishedJob rfl (by decide) (by decide) (by decide) rfl

/-! ### Sequential polls -/

theorem pollSuccesses_of_open (env : StatusEnv) (id u : String) (fields : List (String × Json))
    (hget : env.get id = .ok (.obj fields)) (hopen : needsProcessing (.obj fields) = true)
    (hpw : env.processWeights (optChain (lookupField "output" fields) "weights")
      (lookupField "id" fields) = .ok u) :
    pollSuccesses env id = 1 := by
  have hresp := respondToSnapshot_open env.processWeights fields hopen
  rw [hpw] at hresp
  simp [pollSuccesses, checkTrainingStatus, hget, hresp, pwCalls, hpw, succeeded]

theorem pollRun_eq_polls (env : StatusEnv) (id u : String) (fields : List (String × Json))
    (hget : env.get id = .ok (.obj fields)) (hopen : needsProcessing (.obj fields) = true)
    (hpw : env.processWeights (optChain (lookupField "output" fields) "weights")
      (lookupField "id" fields) = .ok u) (n : Nat) :
    pollRun env id n = n := by
  induction n with
  | zero => rfl
  | succ n ih =>
    simp [pollRun, pollStep, ih, pollSuccesses_of_open env id u fields hget hopen hpw]

/-- C4: two sequential polls of the finished job `j1`, the remote service
reporting the same succeeded snapshot each time and nothing reset in between,
complete `processWeights` successfully twice: the second poll calls the
pipeline again, because the flag the guard reads is only ever written into
the response. -/
theorem second_poll_runs_pipeline_again :
    pollRun finishedEnv "j1" 2 = 2
      ∧ (pwCalls (checkTrainingStatus finishedEnv "j1").2).length = 1
      ∧ (checkTrainingStatus finishedEnv "j1").1.body.prop "processedWeights" = some (.bool true)
      ∧ truthy? ((Json.obj finishedJob).prop "processedWeights") = false := by
  refine ⟨?_, rfl, rfl, rfl⟩
  exact pollRun_eq_polls finishedEnv "j1" _ finishedJob rfl (by decide) rfl 2

/-! ### Paths -/

theorem string_mk_ne_empty (l : List Char) (h : l ≠ []) : String.mk l ≠ "" := by
  intro hl
  apply h
  have : (String.mk l).data = ("" : String).data := by rw [hl]
  simpa using this

theorem posixNormalize_ne_empty (path : String) : posixNormalize path ≠ "" := by
  unfold posixNormalize
  split
  · decide
  · dsimp only
    split
    · split
      · decide
      · split <;> decide
    · rename_i hp
      apply string_mk_ne_empty
      intro hnil
      apply hp
      have h1 := List.append_eq_nil.mp hnil
      exact (List.append_eq_nil.mp h1.1).2

theorem pathJoin_ne_empty (parts : List String) : pathJoin parts ≠ "" := by
  unfold pathJoin
  dsimp only
  split
  · decide
  · exact posixNormalize_ne_empty _

/-! ### The depth-first search -/

theorem findSafetensors_ne_empty :
    ∀ (t : FsEntries) (dir p : String), findSafetensors dir t = some p → p ≠ ""
  | .nil, dir, p, h => by simp [findSafetensors] at h
  | .cons file (.dir sub) rest, dir, p, h => by
    have ih1 := findSafetensors_ne_empty sub (pathJoin [dir, file])
    have ih2 := findSafetensors_ne_empty rest dir
    rw [findSafetensors] at h
    cases hsub : findSafetensors (pathJoin [dir, file]) sub with
    | none =>
      rw [hsub] at h
      exact ih2 p h
    | some found =>
      rw [hsub] at h
      have hne := ih1 found hsub
      simp only [hne, ne_eq, not_false_eq_true, if_true] at h
      cases h
      exact hne
  | .cons file (.file _) rest, dir, p, h => by
    have ih2 := findSafetensors_ne_empty rest dir
    rw [findSafetensors] at h
    split at h
    · cases h
      exact pathJoin_ne_empty _
    · exact ih2 p h

theorem firstSafetensors_dir (dir file : String) (sub rest : FsEntries) :
    firstSafetensors dir (.cons file (.dir sub) rest)
      = (firstSafetensors (pathJoin [dir, file]) sub).or (firstSafetensors dir rest) := by
  simp only [firstSafetensors, depthFirstFiles, List.filter_append, List.head?_append]
  cases (List.filter (fun e => endsWith e.2 ".safetensors")
    (depthFirstFiles (pathJoin [dir, file]) sub)).head? <;> rfl

theorem firstSafetensors_file (dir file : String) (bytes : List Nat) (rest : FsEntries) :
    firstSafetensors dir (.cons file (.file bytes) rest)
      = if endsWith file ".safetensors" then some (pathJoin [dir, file])
        else firstSafetensors dir rest := by
  by_cases h : endsWith file ".safetensors" = true
  · simp [firstSafetensors, depthFirstFiles, List.filter_cons, h]
  · simp [firstSafetensors, depthFirstFiles, List.filter_cons, h]

theorem findSafetensors_eq_first :
    ∀ (t : FsEntries) (dir : String), findSafetensors dir t = firstSafetensors dir t
  | .nil, dir => by simp [findSafetensors, firstSafetensors, depthFirstFiles]
  | .cons file (.dir sub) rest, dir => by
    have ih1 := findSafetensors_eq_first sub (pathJoin [dir, file])
    have ih2 := findSafetensors_eq_first rest dir
    rw [firstSafetensors_dir, ← ih1, ← ih2, findSafetensors]
    cases hsub : findSafetensors (pathJoin [dir, file]) sub with
    | none => rfl
    | some found =>
      have hne := findSafetensors_ne_empty sub _ found hsub
      simp [hne]
  | .cons file (.file bytes) rest, dir => by
    have ih2 := findSafetensors_eq_first rest dir
    rw [firstSafetensors_file, ← ih2, findSafetensors]

theorem head?_filter_eq_find? {α : Type} (p : α → Bool) (l : List α) :
    (l.filter p).head? = l.find? p := by
  induction l with
  | nil => rfl
  | cons a l ih =>
    by_cases h : p a = true
    · simp [List.filter_cons, List.find?_cons, h]
    · simp [List.filter_cons, List.find?_cons, h, ih]

/-- C5: `findSafetensors` returns the first file, in depth-first order, whose
name ends with `.safetensors`.  When the tree below `dir` holds such a file
the search returns the path of one that no matching file precedes in the
depth-first listing; and whatever path it returns is the path of a
non-directory file of that listing whose name ends with `.safetensors`. -/
theorem findSafetensors_returns_first_match (dir : String) (t : FsEntries) :
    findSafetensors dir t = firstSafetensors dir t
      ∧ ((∃ e ∈ depthFirstFiles dir t, endsWith e.2 ".safetensors" = true) →
          ∃ p name before after, findSafetensors dir t = some p
            ∧ depthFirstFiles dir t = before ++ (p, name) :: after
            ∧ endsWith name ".safetensors" = true
            ∧ ∀ e ∈ before, endsWith e.2 ".safetensors" = false)
      ∧ (∀ p, findSafetensors dir t = some p →
          ∃ name, (p, name) ∈ depthFirstFiles dir t ∧ endsWith name ".safetensors" = true) := by
  have hfind : findSafetensors dir t
      = ((depthFirstFiles dir t).find? (fun e => endsWith e.2 ".safetensors")).map Prod.fst := by
    rw [findSafetensors_eq_first, firstSafetensors, head?_filter_eq_find?]
  refine ⟨findSafetensors_eq_first t dir, ?_, ?_⟩
  · rintro ⟨e, hmem, hsuffix⟩
    cases hf : (depthFirstFiles dir t).find? (fun e => endsWith e.2 ".safetensors") with
    | none =>
      rw [List.find?_eq_none] at hf
      exact absurd hsuffix (hf e hmem)
    | some hit =>
      obtain ⟨hp, before, after, hsplit, hbefore⟩ := List.find?_eq_some.mp hf
      refine ⟨hit.1, hit.2, before, after, ?_, hsplit, hp, ?_⟩
      · rw [hfind, hf]; rfl
      · intro x hx
        simpa using hbefore x hx
  · intro p hp
    rw [hfind] at hp
    cases hf : (depthFirstFiles dir t).find? (fun e => endsWith e.2 ".safetensors") with
    | none => rw [hf] at hp; cases hp
    | some hit =>
      rw [hf] at hp
      cases hp
      exact ⟨hit.2, List.mem_of_find?_eq_some hf, (List.find?_eq_some.mp hf).1⟩

theorem findSafetensors_returns_first_match_witness :
    ∃ p name before after, findSafetensors "/app/temp/j1" nestedTree = some p
      ∧ depthFirstFiles "/app/temp/j1" nestedTree = before ++ (p, name) :: after
      ∧ endsWith name ".safetensors" = true
      ∧ ∀ e ∈ before, endsWith e.2 ".safetensors" = false :=
  (findSafetensors_returns_first_match "/app/temp/j1" nestedTree).2.1
    ⟨("/app/temp/j1/other.safetensors", "other.safetensors"), by decide, by decide⟩


/-! ### Sequencing -/

theorem andThen_of_ok {α β γ : Type} (r : Except JsError α × List γ)
    (f : α → Except JsError β × List γ) (a : α) (h : r.1 = .ok a) :
    andThen r f = ((f a).1, r.2 ++ (f a).2) := by
  simp [andThen, h]

theorem andThen_of_error {α β γ : Type} (r : Except JsError α × List γ)
    (f : α → Except JsError β × List γ) (e : JsError) (h : r.1 = .error e) :
    andThen r f = (.error e, r.2) := by
  simp [andThen, h]

theorem andThen_ok_inv {α β γ : Type} (r : Except JsError α × List γ)
    (f : α → Except JsError β × List γ) (b : β) (h : (andThen r f).1 = .ok b) :
    ∃ a, r.1 = .ok a ∧ (f a).1 = .ok b := by
  cases hr : r.1 with
  | error e => rw [andThen_of_error r f e hr] at h; cases h
  | ok a => rw [andThen_of_ok r f a hr] at h; exact ⟨a, rfl, h⟩

/-! ### Which calls each stage makes -/

theorem ensureDir_calls (env : WeightsEnv) (d : String) :
    ∀ c ∈ (ensureDir env d).2, c.stage = .setup := by
  unfold ensureDir
  split <;> simp [WeightsCall.stage]

theorem stageSetup_calls (env : WeightsEnv) (id : String) :
    ∀ c ∈ (stageSetup env id).2, c.stage = .setup := by
  intro c hc
  unfold stageSetup at hc
  cases h : (ensureDir env (tempDir env)).1 with
  | error e =>
    rw [andThen_of_error _ _ e h] at hc
    exact ensureDir_calls env _ c hc
  | ok a =>
    rw [andThen_of_ok _ _ a h] at hc
    rcases List.mem_append.mp hc with h1 | h1
    · exact ensureDir_calls env _ c h1
    · exact ensureDir_calls env _ c h1

theorem stageFetch_calls (env : WeightsEnv) (url : Option Json) (id : String) :
    ∀ c ∈ (stageFetch env url id).2, c.stage = .fetch := by
  intro c hc
  unfold stageFetch at hc
  cases h : env.fetch url with
  | error e =>
    rw [h, andThen_of_error _ _ e rfl] at hc
    simp at hc
    rcases hc with rfl | rfl <;> rfl
  | ok response =>
    rw [h, andThen_of_ok _ _ response rfl] at hc
    by_cases hok : response.ok = true
    · simp [hok] at hc
      rcases hc with rfl | rfl | rfl <;> rfl
    · simp [hok] at hc
      rcases hc with rfl | rfl <;> rfl

theorem stageFetch_calls_ne_nil (env : WeightsEnv) (url : Option Json) (id : String) :
    (stageFetch env url id).2 ≠ [] := by
  unfold stageFetch
  cases h : env.fetch url with
  | error e => rw [andThen_of_error _ _ e rfl]; simp
  | ok response => rw [andThen_of_ok _ _ response rfl]; simp

theorem stageExtract_calls (env : WeightsEnv) (id : String) :
    ∀ c ∈ (stageExtract env id).2, c.stage = .extract := by
  intro c hc
  simp [stageExtract] at hc
  subst hc
  rfl

theorem stageLocate_trace (env : WeightsEnv) (id : String) (tree : FsEntries) :
    (stageLocate env id tree).2 = [.findSafetensors (extractDir env id)] := by
  unfold stageLocate
  split
  · split <;> rfl
  · rfl

theorem stageLocate_calls (env : WeightsEnv) (id : String) (tree : FsEntries) :
    ∀ c ∈ (stageLocate env id tree).2, c.stage = .locate := by
  intro c hc
  rw [stageLocate_trace] at hc
  simp at hc
  subst hc
  rfl

theorem stageUpload_calls_ne_nil (env : WeightsEnv) (id loraPath : String) :
    (stageUpload env id loraPath).2 ≠ [] := by
  unfold stageUpload
  cases h : env.readFileSync loraPath with
  | error e => rw [andThen_of_error _ _ e rfl]; simp
  | ok buf => rw [andThen_of_ok _ _ buf rfl]; simp

theorem stageUpload_calls (env : WeightsEnv) (id loraPath : String) :
    ∀ c ∈ (stageUpload env id loraPath).2, c.stage = .upload := by
  intro c hc
  unfold stageUpload at hc
  cases h : env.readFileSync loraPath with
  | error e =>
    rw [h, andThen_of_error _ _ e rfl] at hc
    simp at hc
    subst hc
    rfl
  | ok buf =>
    rw [h, andThen_of_ok _ _ buf rfl] at hc
    simp at hc
    rcases hc with rfl | rfl <;> rfl

theorem uploadKeys_append (l₁ l₂ : List WeightsCall) :
    uploadKeys (l₁ ++ l₂) = uploadKeys l₁ ++ uploadKeys l₂ := by
  induction l₁ with
  | nil => rfl
  | cons c l ih => cases c <;> simp [uploadKeys, ih]

theorem uploadKeys_eq_nil (l : List WeightsCall) (h : ∀ c ∈ l, c.stage ≠ .upload) :
    uploadKeys l = [] := by
  induction l with
  | nil => rfl
  | cons c l ih =>
    have hc := h c (List.mem_cons_self _ _)
    have hl := ih (fun d hd => h d (List.mem_cons_of_mem _ hd))
    cases c <;> first | exact absurd rfl hc | simp [uploadKeys, hl]

theorem getLast?_stage_append (l₁ l₂ : List WeightsCall) (s : Stage) (hne : l₂ ≠ [])
    (h : ∀ c ∈ l₂, c.stage = s) :
    ((l₁ ++ l₂).getLast?).map WeightsCall.stage = some s := by
  rw [List.getLast?_append_of_ne_nil l₁ hne, List.getLast?_eq_getLast _ hne]
  simp only [Option.map_some']
  rw [h _ (List.getLast_mem hne)]

/-! ### Runs of the pipeline -/

theorem processWeights_fails_in_fetch (env : WeightsEnv) (url : Option Json) (id : String)
    (e : JsError) (hsetup : (stageSetup env id).1 = .ok ())
    (hfetch : (stageFetch env url id).1 = .error e) :
    processWeights env url (some (.str id))
      = (.error e, (stageSetup env id).2 ++ (stageFetch env url id).2) := by
  simp only [processWeights]
  rw [andThen_of_ok _ _ () hsetup, andThen_of_error _ _ e hfetch]

theorem processWeights_fails_in_extract (env : WeightsEnv) (url : Option Json) (id : String)
    (e : JsError) (hsetup : (stageSetup env id).1 = .ok ())
    (hfetch : (stageFetch env url id).1 = .ok ())
    (hextract : (stageExtract env id).1 = .error e) :
    processWeights env url (some (.str id))
      = (.error e, (stageSetup env id).2 ++ ((stageFetch env url id).2 ++ (stageExtract env id).2)) := by
  simp only [processWeights]
  rw [andThen_of_ok _ _ () hsetup, andThen_of_ok _ _ () hfetch, andThen_of_error _ _ e hextract]

theorem processWeights_fails_in_locate (env : WeightsEnv) (url : Option Json) (id : String)
    (e : JsError) (tree : FsEntries) (hsetup : (stageSetup env id).1 = .ok ())
    (hfetch : (stageFetch env url id).1 = .ok ())
    (hextract : (stageExtract env id).1 = .ok tree)
    (hlocate : (stageLocate env id tree).1 = .error e) :
    processWeights env url (some (.str id))
      = (.error e, (stageSetup env id).2 ++ ((stageFetch env url id).2
          ++ ((stageExtract env id).2 ++ (stageLocate env id tree).2))) := by
  simp only [processWeights]
  rw [andThen_of_ok _ _ () hsetup, andThen_of_ok _ _ () hfetch, andThen_of_ok _ _ tree hextract,
    andThen_of_error _ _ e hlocate]

theorem processWeights_reaches_upload (env : WeightsEnv) (url : Option Json) (id : String)
    (tree : FsEntries) (loraPath : String) (hsetup : (stageSetup env id).1 = .ok ())
    (hfetch : (stageFetch env url id).1 = .ok ())
    (hextract : (stageExtract env id).1 = .ok tree)
    (hlocate : (stageLocate env id tree).1 = .ok loraPath) :
    processWeights env url (some (.str id))
      = ((stageUpload env id loraPath).1, (stageSetup env id).2 ++ ((stageFetch env url id).2
          ++ ((stageExtract env id).2 ++ ((stageLocate env id tree).2
            ++ (stageUpload env id loraPath).2)))) := by
  simp only [processWeights]
  rw [andThen_of_ok _ _ () hsetup, andThen_of_ok _ _ () hfetch, andThen_of_ok _ _ tree hextract,
    andThen_of_ok _ _ loraPath hlocate]

theorem processWeights_ok_inv (env : WeightsEnv) (url : Option Json) (id a : String)
    (h : (processWeights env url (some (.str id))).1 = .ok a) :
    ∃ tree loraPath, (stageSetup env id).1 = .ok () ∧ (stageFetch env url id).1 = .ok ()
      ∧ (stageExtract env id).1 = .ok tree ∧ (stageLocate env id tree).1 = .ok loraPath
      ∧ (stageUpload env id loraPath).1 = .ok a := by
  simp only [processWeights] at h
  obtain ⟨_, h1, h⟩ := andThen_ok_inv _ _ _ h
  obtain ⟨_, h2, h⟩ := andThen_ok_inv _ _ _ h
  obtain ⟨tree, h3, h⟩ := andThen_ok_inv _ _ _ h
  obtain ⟨loraPath, h4, h⟩ := andThen_ok_inv _ _ _ h
  exact ⟨tree, loraPath, h1, h2, h3, h4, h⟩

theorem stageUpload_ok (env : WeightsEnv) (id loraPath a : String)
    (h : (stageUpload env id loraPath).1 = .ok a) :
    a = publicUrl env.s3 (destinationKey id)
      ∧ uploadKeys (stageUpload env id loraPath).2 = [destinationKey id] := by
  unfold stageUpload at h ⊢
  cases hr : env.readFileSync loraPath with
  | error e => rw [hr, andThen_of_error _ _ e rfl] at h; cases h
  | ok buf =>
    rw [hr, andThen_of_ok _ _ buf rfl] at h
    rw [andThen_of_ok _ _ buf rfl]
    simp only [uploadLargeFileToS3] at h
    cases hu : env.uploadDone (destinationKey id) buf with
    | error e => rw [hu] at h; cases h
    | ok _ =>
      rw [hu] at h
      injection h with h
      exact ⟨h.symm, rfl⟩

theorem uploadKeys_of_success (env : WeightsEnv) (url : Option Json) (id a : String)
    (h : (processWeights env url (some (.str id))).1 = .ok a) :
    a = publicUrl env.s3 (destinationKey id)
      ∧ uploadKeys (processWeights env url (some (.str id))).2 = [destinationKey id] := by
  obtain ⟨tree, loraPath, h1, h2, h3, h4, h5⟩ := processWeights_ok_inv env url id a h
  obtain ⟨ha, hk⟩ := stageUpload_ok env id loraPath a h5
  refine ⟨ha, ?_⟩
  rw [processWeights_reaches_upload env url id tree loraPath h1 h2 h3 h4]
  simp only [uploadKeys_append, hk]
  rw [uploadKeys_eq_nil _ (fun c hc => by rw [stageSetup_calls env id c hc]; decide),
    uploadKeys_eq_nil _ (fun c hc => by rw [stageFetch_calls env url id c hc]; decide),
    uploadKeys_eq_nil _ (fun c hc => by rw [stageExtract_calls env id c hc]; decide),
    uploadKeys_eq_nil _ (fun c hc => by rw [stageLocate_calls env id tree c hc]; decide)]
  rfl

theorem findSafetensors_none_of_no_match (dir : String) (t : FsEntries)
    (h : ∀ e ∈ depthFirstFiles dir t, endsWith e.2 ".safetensors" = false) :
    findSafetensors dir t = none := by
  rw [findSafetensors_eq_first, firstSafetensors]
  have hnil : (depthFirstFiles dir t).filter (fun e => endsWith e.2 ".safetensors") = [] := by
    rw [List.filter_eq_nil_iff]
    intro a ha
    simp [h a ha]
  rw [hnil]
  rfl

theorem checkTrainingStatus_on_throw (env : StatusEnv) (id : String) (e : JsError)
    (fields : List (String × Json)) (hget : env.get id = .ok (.obj fields))
    (hopen : needsProcessing (.obj fields) = true)
    (hpw : env.processWeights (optChain (lookupField "output" fields) "weights")
      (lookupField "id" fields) = .error e) :
    (checkTrainingStatus env id).1
      = ⟨200, .obj (setField "extractError" (.str e.message) fields)⟩ := by
  have hresp := respondToSnapshot_open env.processWeights fields hopen
  rw [hpw] at hresp
  simp only [checkTrainingStatus, hget, hresp]

/-- C6: when the extracted archive holds no file whose name ends with
`.safetensors` at any depth, `findSafetensors` returns `null`,
`processWeights` throws `Arquivo .safetensors não encontrado` having made no
call of the upload stage (no file read, no `uploadLargeFileToS3`), and the
status response for that job is the snapshot plus `extractError`, with
`processedWeights` not set. -/
theorem missing_weights_abort_before_upload (env : WeightsEnv)
    (get : String → Except JsError Json) (jobId id : String) (tree : FsEntries)
    (fields : List (String × Json))
    (hget : get jobId = .ok (.obj fields))
    (hstatus : strictEqStr (lookupField "status" fields) "succeeded" = true)
    (hweights : truthy? (optChain (lookupField "output" fields) "weights") = true)
    (hflag : truthy? (lookupField "processedWeights" fields) = false)
    (hid : lookupField "id" fields = some (.str id))
    (hsetup : (stageSetup env id).1 = .ok ())
    (hfetch : (stageFetch env (optChain (lookupField "output" fields) "weights") id).1 = .ok ())
    (hextract : env.tarExtract (tarPath env id) (extractDir env id) = .ok tree)
    (hnone : ∀ e ∈ depthFirstFiles (extractDir env id) tree, endsWith e.2 ".safetensors" = false) :
    findSafetensors (extractDir env id) tree = none
      ∧ (processWeights env (optChain (lookupField "output" fields) "weights") (some (.str id))).1
          = .error ⟨"Arquivo .safetensors não encontrado"⟩
      ∧ uploadKeys
          (processWeights env (optChain (lookupField "output" fields) "weights") (some (.str id))).2
          = []
      ∧ (∀ c ∈ (processWeights env (optChain (lookupField "output" fields) "weights")
            (some (.str id))).2, c.stage ≠ .upload)
      ∧ (checkTrainingStatus (statusEnvOf get env) jobId).1.body
          = .obj (setField "extractError" (.str "Arquivo .safetensors não encontrado") fields)
      ∧ truthy? ((checkTrainingStatus (statusEnvOf get env) jobId).1.body.prop "processedWeights")
          = false := by
  have hfind := findSafetensors_none_of_no_match _ _ hnone
  have hlocate : (stageLocate env id tree).1 = .error ⟨"Arquivo .safetensors não encontrado"⟩ := by
    simp [stageLocate, hfind]
  have hstages : ∀ c ∈ (processWeights env (optChain (lookupField "output" fields) "weights")
      (some (.str id))).2, c.stage ≠ .upload := by
    intro c hc
    rw [processWeights_fails_in_locate env _ id _ tree hsetup hfetch hextract hlocate] at hc
    simp only [List.mem_append] at hc
    rcases hc with h | h | h | h
    · rw [stageSetup_calls env id c h]; decide
    · rw [stageFetch_calls env _ id c h]; decide
    · rw [stageExtract_calls env id c h]; decide
    · rw [stageLocate_calls env id tree c h]; decide
  have hrun : (processWeights env (optChain (lookupField "output" fields) "weights")
      (some (.str id))).1 = .error ⟨"Arquivo .safetensors não encontrado"⟩ := by
    rw [processWeights_fails_in_locate env _ id _ tree hsetup hfetch hextract hlocate]
  have hopen : needsProcessing (.obj fields) = true := by
    simp [needsProcessing, Json.prop, hstatus, hweights, hflag]
  have hresp := checkTrainingStatus_on_throw (statusEnvOf get env) jobId
    ⟨"Arquivo .safetensors não encontrado"⟩ fields hget hopen (by
      show (processWeights env _ (lookupField "id" fields)).1 = _
      rw [hid]; exact hrun)
  refine ⟨hfind, hrun, uploadKeys_eq_nil _ hstages, hstages, ?_, ?_⟩
  · rw [hresp]
  · rw [hresp]
    show truthy? (lookupField "processedWeights" (setField "extractError" _ fields)) = false
    rw [lookupField_setField_other _ _ _ _ (by decide)]
    exact hflag

theorem missing_weights_abort_before_upload_witness :
    findSafetensors (extractDir (healthyEnv emptyHandedTree) "j1") emptyHandedTree = none
      ∧ (processWeights (healthyEnv emptyHandedTree)
            (optChain (lookupField "output" finishedJob) "weights") (some (.str "j1"))).1
          = .error ⟨"Arquivo .safetensors não encontrado"⟩
      ∧ uploadKeys (processWeights (healthyEnv emptyHandedTree)
            (optChain (lookupField "output" finishedJob) "weights") (some (.str "j1"))).2 = []
      ∧ (∀ c ∈ (processWeights (healthyEnv emptyHandedTree)
            (optChain (lookupField "output" finishedJob) "weights") (some (.str "j1"))).2,
          c.stage ≠ .upload)
      ∧ (checkTrainingStatus (statusEnvOf (fun _ => .ok (.obj finishedJob))
            (healthyEnv emptyHandedTree)) "j1").1.body
          = .obj (setField "extractError" (.str "Arquivo .safetensors não encontrado") finishedJob)
      ∧ truthy? ((checkTrainingStatus (statusEnvOf (fun _ => .ok (.obj finishedJob))
            (healthyEnv emptyHandedTree)) "j1").1.body.prop "processedWeights") = false :=
  missing_weights_abort_before_upload (healthyEnv emptyHandedTree)
    (fun _ => .ok (.obj finishedJob)) "j1" "j1" emptyHandedTree finishedJob rfl
    (by decide) (by decide) (by decide) rfl rfl rfl rfl (by decide)

theorem stageLocate_ok (env : WeightsEnv) (id : String) (tree : FsEntries) (loraPath : String)
    (h : (stageLocate env id tree).1 = .ok loraPath) :
    findSafetensors (extractDir env id) tree = some loraPath := by
  unfold stageLocate at h
  cases hf : findSafetensors (extractDir env id) tree with
  | none => rw [hf] at h; cases h
  | some found =>
    rw [hf] at h
    by_cases hne : found = ""
    · simp [hne] at h
    · simp [hne] at h
      rw [h]

theorem stageUpload_ok_call (env : WeightsEnv) (id loraPath a : String)
    (h : (stageUpload env id loraPath).1 = .ok a) :
    ∃ buf, env.readFileSync loraPath = .ok buf
      ∧ env.uploadDone (destinationKey id) buf = .ok () := by
  unfold stageUpload at h
  cases hr : env.readFileSync loraPath with
  | error e => rw [hr, andThen_of_error _ _ e rfl] at h; cases h
  | ok buf =>
    rw [hr, andThen_of_ok _ _ buf rfl] at h
    simp only [uploadLargeFileToS3] at h
    cases hu : env.uploadDone (destinationKey id) buf with
    | error e => rw [hu] at h; cases h
    | ok _ => exact ⟨buf, rfl, hu⟩

theorem upload_of_success (env : WeightsEnv) (url : Option Json) (id a : String)
    (h : (processWeights env url (some (.str id))).1 = .ok a) :
    ∃ tree loraPath buf, env.tarExtract (tarPath env id) (extractDir env id) = .ok tree
      ∧ findSafetensors (extractDir env id) tree = some loraPath
      ∧ env.readFileSync loraPath = .ok buf
      ∧ env.uploadDone (destinationKey id) buf = .ok () := by
  obtain ⟨tree, loraPath, _, _, h3, h4, h5⟩ := processWeights_ok_inv env url id a h
  obtain ⟨buf, hr, hu⟩ := stageUpload_ok_call env id loraPath a h5
  exact ⟨tree, loraPath, buf, h3, stageLocate_ok env id tree loraPath h4, hr, hu⟩

/-- C9: two successful runs of `processWeights` for the same job `J` under the
same storage configuration, whatever their archive URLs and whatever file each
located, both upload under the key `models/J/lora.safetensors` and return the
same address, `https://<bucket>.s3.<region>.amazonaws.com/` followed by that
key: the address is computed from the configuration and the key alone.  In
each run the S3 upload itself was made, and succeeded, with that key and with
the bytes read from the file the search located in the run's extracted
archive. -/
theorem processWeights_address_fixed_by_job (env₁ env₂ : WeightsEnv) (url₁ url₂ : Option Json)
    (J a₁ a₂ : String) (hcfg : env₁.s3 = env₂.s3)
    (h₁ : (processWeights env₁ url₁ (some (.str J))).1 = .ok a₁)
    (h₂ : (processWeights env₂ url₂ (some (.str J))).1 = .ok a₂) :
    uploadKeys (processWeights env₁ url₁ (some (.str J))).2
        = ["models/" ++ J ++ "/lora.safetensors"]
      ∧ uploadKeys (processWeights env₂ url₂ (some (.str J))).2
        = ["models/" ++ J ++ "/lora.safetensors"]
      ∧ a₁ = a₂
      ∧ a₁ = publicUrl env₁.s3 ("models/" ++ J ++ "/lora.safetensors")
      ∧ (∀ bucket region, env₁.s3 = ⟨some bucket, some region⟩ →
          a₁ = "https://" ++ bucket ++ ".s3." ++ region ++ ".amazonaws.com/"
                ++ ("models/" ++ J ++ "/lora.safetensors"))
      ∧ (∃ tree loraPath buf,
          env₁.tarExtract (tarPath env₁ J) (extractDir env₁ J) = .ok tree
            ∧ findSafetensors (extractDir env₁ J) tree = some loraPath
            ∧ env₁.readFileSync loraPath = .ok buf
            ∧ env₁.uploadDone ("models/" ++ J ++ "/lora.safetensors") buf = .ok ())
      ∧ (∃ tree loraPath buf,
          env₂.tarExtract (tarPath env₂ J) (extractDir env₂ J) = .ok tree
            ∧ findSafetensors (extractDir env₂ J) tree = some loraPath
            ∧ env₂.readFileSync loraPath = .ok buf
            ∧ env₂.uploadDone ("models/" ++ J ++ "/lora.safetensors") buf = .ok ()) := by
  obtain ⟨ha₁, hk₁⟩ := uploadKeys_of_success env₁ url₁ J a₁ h₁
  obtain ⟨ha₂, hk₂⟩ := uploadKeys_of_success env₂ url₂ J a₂ h₂
  refine ⟨hk₁, hk₂, ?_, ha₁, ?_, upload_of_success env₁ url₁ J a₁ h₁,
    upload_of_success env₂ url₂ J a₂ h₂⟩
  · rw [ha₁, ha₂, hcfg]
  · intro bucket region hs
    rw [ha₁, hs]
    rfl

theorem processWeights_address_fixed_by_job_witness :
    uploadKeys (processWeights (healthyEnv nestedTree) finishedWeights (some (.str "j1"))).2
        = ["models/" ++ "j1" ++ "/lora.safetensors"]
      ∧ uploadKeys (processWeights (healthyEnv flatTree)
            (some (.str "https://example.org/retry.tar")) (some (.str "j1"))).2
        = ["models/" ++ "j1" ++ "/lora.safetensors"]
      ∧ "https://lora-bucket.s3.eu-west-1.amazonaws.com/models/j1/lora.safetensors"
        = "https://lora-bucket.s3.eu-west-1.amazonaws.com/models/j1/lora.safetensors"
      ∧ "https://lora-bucket.s3.eu-west-1.amazonaws.com/models/j1/lora.safetensors"
        = publicUrl (healthyEnv nestedTree).s3 ("models/" ++ "j1" ++ "/lora.safetensors")
      ∧ (∀ bucket region, (healthyEnv nestedTree).s3 = ⟨some bucket, some region⟩ →
          "https://lora-bucket.s3.eu-west-1.amazonaws.com/models/j1/lora.safetensors"
            = "https://" ++ bucket ++ ".s3." ++ region ++ ".amazonaws.com/"
                ++ ("models/" ++ "j1" ++ "/lora.safetensors"))
      ∧ (∃ tree loraPath buf,
          (healthyEnv nestedTree).tarExtract (tarPath (healthyEnv nestedTree) "j1")
              (extractDir (healthyEnv nestedTree) "j1") = .ok tree
            ∧ findSafetensors (extractDir (healthyEnv nestedTree) "j1") tree = some loraPath
            ∧ (healthyEnv nestedTree).readFileSync loraPath = .ok buf
            ∧ (healthyEnv nestedTree).uploadDone ("models/" ++ "j1" ++ "/lora.safetensors") buf
                = .ok ())
      ∧ (∃ tree loraPath buf,
          (healthyEnv flatTree).tarExtract (tarPath (healthyEnv flatTree) "j1")
              (extractDir (healthyEnv flatTree) "j1") = .ok tree
            ∧ findSafetensors (extractDir (healthyEnv flatTree) "j1") tree = some loraPath
            ∧ (healthyEnv flatTree).readFileSync loraPath = .ok buf
            ∧ (healthyEnv flatTree).uploadDone ("models/" ++ "j1" ++ "/lora.safetensors") buf
                = .ok ()) :=
  processWeights_address_fixed_by_job (healthyEnv nestedTree) (healthyEnv flatTree)
    finishedWeights (some (.str "https://example.org/retry.tar")) "j1"
    "https://lora-bucket.s3.eu-west-1.amazonaws.com/models/j1/lora.safetensors"
    "https://lora-bucket.s3.eu-west-1.amazonaws.com/models/j1/lora.safetensors" rfl rfl rfl

/-! ### Failure of a stage -/

theorem failingStage_of_error (e : JsError) (l₁ l₂ : List WeightsCall) (s : Stage)
    (hne : l₂ ≠ []) (h : ∀ c ∈ l₂, c.stage = s) :
    failingStage (.error e, l₁ ++ l₂) = some s := by
  simp only [failingStage]
  exact getLast?_stage_append l₁ l₂ s hne h

/-- C10 (as stated, refuted): a run whose extraction fails and a run whose
upload fails propagate the very same error, so the error alone does not tell
the two stages apart; `processWeights` re-throws what the collaborator threw
and adds nothing to it. -/
theorem failing_stage_not_recoverable_from_error :
    (processWeights extractFailsEnv finishedWeights (some (.str "j1"))).1
        = .error ⟨"ENOSPC: no space left on device"⟩
      ∧ failingStage (processWeights extractFailsEnv finishedWeights (some (.str "j1")))
        = some .extract
      ∧ (processWeights uploadFailsEnv finishedWeights (some (.str "j1"))).1
        = .error ⟨"ENOSPC: no space left on device"⟩
      ∧ failingStage (processWeights uploadFailsEnv finishedWeights (some (.str "j1")))
        = some .upload :=
  ⟨rfl, rfl, rfl, rfl⟩

theorem rank_le_of_stage (c : WeightsCall) (s t : Stage) (h : c.stage = s)
    (hst : s.rank ≤ t.rank) : c.stage.rank ≤ t.rank := by
  rw [h]
  exact hst

/-- C10 (amended): when the fetch, extract, locate or upload stage of
`processWeights` fails with an error `e`, the earlier stages having succeeded,
the run ends in that stage (no call of a later stage is made) and propagates
`e` itself, unchanged. -/
theorem stage_failure_aborts_and_rethrows (env : WeightsEnv) (url : Option Json) (id : String)
    (e : JsError) (hsetup : (stageSetup env id).1 = .ok ()) :
    ((stageFetch env url id).1 = .error e →
        (processWeights env url (some (.str id))).1 = .error e
          ∧ failingStage (processWeights env url (some (.str id))) = some .fetch
          ∧ ∀ c ∈ (processWeights env url (some (.str id))).2,
              c.stage.rank ≤ Stage.fetch.rank)
      ∧ ((stageFetch env url id).1 = .ok () → (stageExtract env id).1 = .error e →
        (processWeights env url (some (.str id))).1 = .error e
          ∧ failingStage (processWeights env url (some (.str id))) = some .extract
          ∧ ∀ c ∈ (processWeights env url (some (.str id))).2,
              c.stage.rank ≤ Stage.extract.rank)
      ∧ (∀ tree, (stageFetch env url id).1 = .ok () → (stageExtract env id).1 = .ok tree →
        (stageLocate env id tree).1 = .error e →
        (processWeights env url (some (.str id))).1 = .error e
          ∧ failingStage (processWeights env url (some (.str id))) = some .locate
          ∧ ∀ c ∈ (processWeights env url (some (.str id))).2,
              c.stage.rank ≤ Stage.locate.rank)
      ∧ (∀ tree loraPath, (stageFetch env url id).1 = .ok () →
        (stageExtract env id).1 = .ok tree → (stageLocate env id tree).1 = .ok loraPath →
        (stageUpload env id loraPath).1 = .error e →
        (processWeights env url (some (.str id))).1 = .error e
          ∧ failingStage (processWeights env url (some (.str id))) = some .upload) := by
  refine ⟨?_, ?_, ?_, ?_⟩
  · intro hfetch
    rw [processWeights_fails_in_fetch env url id e hsetup hfetch]
    refine ⟨rfl, failingStage_of_error e _ _ _ (stageFetch_calls_ne_nil env url id)
      (stageFetch_calls env url id), ?_⟩
    intro c hc
    rcases List.mem_append.mp hc with h | h
    · exact rank_le_of_stage c _ _ (stageSetup_calls env id c h) (by decide)
    · exact rank_le_of_stage c _ _ (stageFetch_calls env url id c h) (by decide)
  · intro hfetch hextract
    rw [processWeights_fails_in_extract env url id e hsetup hfetch hextract, ← List.append_assoc]
    refine ⟨rfl, failingStage_of_error e _ _ _ (by simp [stageExtract])
      (stageExtract_calls env id), ?_⟩
    intro c hc
    simp only [List.mem_append] at hc
    rcases hc with (h | h) | h
    · exact rank_le_of_stage c _ _ (stageSetup_calls env id c h) (by decide)
    · exact rank_le_of_stage c _ _ (stageFetch_calls env url id c h) (by decide)
    · exact rank_le_of_stage c _ _ (stageExtract_calls env id c h) (by decide)
  · intro tree hfetch hextract hlocate
    rw [processWeights_fails_in_locate env url id e tree hsetup hfetch hextract hlocate,
      ← List.append_assoc, ← List.append_assoc]
    refine ⟨rfl, failingStage_of_error e _ _ _ (by simp [stageLocate_trace])
      (stageLocate_calls env id tree), ?_⟩
    intro c hc
    simp only [List.mem_append] at hc
    rcases hc with ((h | h) | h) | h
    · exact rank_le_of_stage c _ _ (stageSetup_calls env id c h) (by decide)
    · exact rank_le_of_stage c _ _ (stageFetch_calls env url id c h) (by decide)
    · exact rank_le_of_stage c _ _ (stageExtract_calls env id c h) (by decide)
    · exact rank_le_of_stage c _ _ (stageLocate_calls env id tree c h) (by decide)
  · intro tree loraPath hfetch hextract hlocate hupload
    rw [processWeights_reaches_upload env url id tree loraPath hsetup hfetch hextract hlocate,
      hupload, ← List.append_assoc, ← List.append_assoc, ← List.append_assoc]
    exact ⟨rfl, failingStage_of_error e _ _ _ (stageUpload_calls_ne_nil env id loraPath)
      (stageUpload_calls env id loraPath)⟩

theorem stage_failure_aborts_and_rethrows_witness :
    (processWeights fetchFailsEnv finishedWeights (some (.str "j1"))).1
        = .error ⟨"HTTP error! status: 404"⟩
      ∧ failingStage (processWeights fetchFailsEnv finishedWeights (some (.str "j1")))
        = some .fetch
      ∧ ∀ c ∈ (processWeights fetchFailsEnv finishedWeights (some (.str "j1"))).2,
          c.stage.rank ≤ Stage.fetch.rank :=
  (stage_failure_aborts_and_rethrows fetchFailsEnv finishedWeights "j1"
    ⟨"HTTP error! status: 404"⟩ rfl).1 rfl

/-! ### Starting a training -/

/-- C7: a start-training request whose image set is missing, `null`, or has
fewer than 5 entries is answered 400 with error `Número insuficiente de
imagens` and no collaborator call at all (no `createImagesZip`, no
`uploadToS3`, no `replicate.trainings.create`); the upload-images route
answers an absent or shorter-than-5 file list with the same status and error. -/
theorem too_few_images_rejected_before_any_work (env : TrainEnv) (req : TrainingRequest)
    (uploaded : Option (List UploadedFile))
    (hreq : req.imageFiles = .missing ∨ req.imageFiles = .null
      ∨ ∃ files, req.imageFiles = .list files ∧ files.length < 5)
    (hup : uploaded = none ∨ ∃ fs, uploaded = some fs ∧ fs.length < 5) :
    (startTraining env req).1.status = 400
      ∧ errorText (startTraining env req).1 = some "Número insuficiente de imagens"
      ∧ (startTraining env req).2 = []
      ∧ (uploadImages uploaded).status = 400
      ∧ errorText (uploadImages uploaded) = some "Número insuficiente de imagens" := by
  have hstart : (startTraining env req).1.status = 400
      ∧ errorText (startTraining env req).1 = some "Número insuficiente de imagens"
      ∧ (startTraining env req).2 = [] := by
    rcases hreq with h | h | ⟨files, h, hlen⟩
    · have hrun : startTraining env req = (insufficientImages 0, []) := by
        simp only [startTraining, h]
      rw [hrun]; exact ⟨rfl, rfl, rfl⟩
    · have hrun : startTraining env req = (insufficientImages 0, []) := by
        simp only [startTraining, h]
      rw [hrun]; exact ⟨rfl, rfl, rfl⟩
    · have hrun : startTraining env req = (insufficientImages files.length, []) := by
        simp only [startTraining, h, hlen, if_true]
      rw [hrun]; exact ⟨rfl, rfl, rfl⟩
  have hupload : (uploadImages uploaded).status = 400
      ∧ errorText (uploadImages uploaded) = some "Número insuficiente de imagens" := by
    rcases hup with h | ⟨fs, h, hlen⟩
    · subst h; exact ⟨rfl, rfl⟩
    · have hrun : uploadImages uploaded = insufficientUploads := by
        simp only [uploadImages, h, hlen, if_true]
      rw [hrun]; exact ⟨rfl, rfl⟩
  exact ⟨hstart.1, hstart.2.1, hstart.2.2, hupload.1, hupload.2⟩

theorem too_few_images_rejected_before_any_work_witness :
    (startTraining studioEnv ⟨.list fourRefs, []⟩).1.status = 400
      ∧ errorText (startTraining studioEnv ⟨.list fourRefs, []⟩).1
          = some "Número insuficiente de imagens"
      ∧ (startTraining studioEnv ⟨.list fourRefs, []⟩).2 = []
      ∧ (uploadImages (some [⟨"a.png", "/app/uploads/a.png"⟩])).status = 400
      ∧ errorText (uploadImages (some [⟨"a.png", "/app/uploads/a.png"⟩]))
          = some "Número insuficiente de imagens" :=
  too_few_images_rejected_before_any_work studioEnv ⟨.list fourRefs, []⟩
    (some [⟨"a.png", "/app/uploads/a.png"⟩])
    (Or.inr (Or.inr ⟨fourRefs, rfl, by decide⟩)) (Or.inr ⟨_, rfl, by decide⟩)

/-! ### The image bundle -/

theorem writtenBundles_append (l₁ l₂ : List TrainCall) :
    writtenBundles (l₁ ++ l₂) = writtenBundles l₁ ++ writtenBundles l₂ := by
  induction l₁ with
  | nil => rfl
  | cons c l ih => cases c <;> simp [writtenBundles, ih]

theorem addFiles_of_refs (env : TrainEnv) (files : List Json)
    (hrefs : ∀ f ∈ files, ∃ name, f.prop "filename" = some (.str name))
    (hadd : ∀ p ∈ referencedPaths env files, env.existsSync p = true →
      env.addLocalFile p = .ok ()) :
    (addFiles env files).1 = .ok ((referencedPaths env files).filter env.existsSync)
      ∧ writtenBundles (addFiles env files).2 = [] := by
  induction files with
  | nil => exact ⟨rfl, rfl⟩
  | cons f rest ih =>
    obtain ⟨name, hname⟩ := hrefs f (List.mem_cons_self _ _)
    have hpath : refPath env f = some (pathJoin [env.uploadsDir, basename name]) := by
      simp [refPath, hname]
    have hpaths : referencedPaths env (f :: rest)
        = pathJoin [env.uploadsDir, basename name] :: referencedPaths env rest := by
      simp [referencedPaths, List.filterMap_cons, hpath]
    have ihrest := ih (fun g hg => hrefs g (List.mem_cons_of_mem _ hg))
      (fun q hq hex => hadd q (by rw [hpaths]; exact List.mem_cons_of_mem _ hq) hex)
    cases f with
    | obj fs =>
      by_cases hex : env.existsSync (pathJoin [env.uploadsDir, basename name]) = true
      · have hok := hadd _ (by rw [hpaths]; exact List.mem_cons_self _ _) hex
        simp only [addFiles, hname, hex, hok, if_true, hpaths, List.filter_cons, ihrest.1]
        exact ⟨rfl, ihrest.2⟩
      · simp only [addFiles, hname, hex, hpaths, List.filter_cons]
        exact ihrest
    | null => simp [Json.prop] at hname
    | bool b => simp [Json.prop] at hname
    | num n => simp [Json.prop] at hname
    | str t => simp [Json.prop] at hname
    | arr xs => simp [Json.prop] at hname

/-- C8 (as stated, refuted): five references pass validation and the training
is started, yet the bundle holds four entries.  In the first run `c.png` is no
longer in the uploads directory and is skipped; in the second two references
name the same file `a.png`, which the archive holds once. -/
theorem bundle_omits_missing_file :
    fiveRefs.length = 5
      ∧ (startTraining gapEnv ⟨.list fiveRefs, []⟩).1.status = 200
      ∧ writtenBundles (startTraining gapEnv ⟨.list fiveRefs, []⟩).2
          = [{"a.png", "b.png", "d.png", "e.png"}]
      ∧ (writtenBundles (createImagesZip gapEnv fiveRefs).2).map Finset.card = [4]
      ∧ repeatedRefs.length = 5
      ∧ (startTraining studioEnv ⟨.list repeatedRefs, []⟩).1.status = 200
      ∧ writtenBundles (startTraining studioEnv ⟨.list repeatedRefs, []⟩).2
          = [{"a.png", "b.png", "c.png", "d.png"}]
      ∧ (writtenBundles (createImagesZip studioEnv repeatedRefs).2).map Finset.card = [4] := by
  decide

/-- C8 (amended): for an image set whose entries each carry a string
`filename`, `createImagesZip` writes one bundle whose entries are exactly the
entry names of the referenced files that exist in the uploads directory: a
missing file is skipped and references to the same file name share one entry.
When every referenced file exists and the references have pairwise different
entry names, the bundle has one entry for each reference of the set, none
omitted. -/
theorem createImagesZip_bundles_existing_files (env : TrainEnv) (files : List Json)
    (hrefs : ∀ f ∈ files, ∃ name, f.prop "filename" = some (.str name))
    (hadd : ∀ p ∈ referencedPaths env files, env.existsSync p = true →
      env.addLocalFile p = .ok ())
    (hwrite : ∀ entries, env.writeZip (zipPath env) entries = .ok ()) :
    (createImagesZip env files).1 = .ok (zipPath env, zipName env)
      ∧ writtenBundles (createImagesZip env files).2
          = [archiveEntries env ((referencedPaths env files).filter env.existsSync)]
      ∧ (∀ n, n ∈ archiveEntries env ((referencedPaths env files).filter env.existsSync)
          ↔ ∃ p ∈ referencedPaths env files, env.existsSync p = true ∧ env.entryName p = n)
      ∧ ((∀ p ∈ referencedPaths env files, env.existsSync p = true) →
          ((referencedPaths env files).map env.entryName).Nodup →
          (∀ p ∈ referencedPaths env files,
              env.entryName p ∈ archiveEntries env
                ((referencedPaths env files).filter env.existsSync))
            ∧ (archiveEntries env ((referencedPaths env files).filter env.existsSync)).card
                = files.length) := by
  obtain ⟨hok, hnone⟩ := addFiles_of_refs env files hrefs hadd
  have hrun : createImagesZip env files
      = (.ok (zipPath env, zipName env), (addFiles env files).2
          ++ ([.writeZip (zipPath env)
                (archiveEntries env ((referencedPaths env files).filter env.existsSync))] ++ []))
      := by
    unfold createImagesZip
    rw [andThen_of_ok _ _ _ hok, andThen_of_ok _ _ () (hwrite _)]
  have hbundle : writtenBundles (createImagesZip env files).2
      = [archiveEntries env ((referencedPaths env files).filter env.existsSync)] := by
    rw [hrun]
    simp [writtenBundles_append, hnone, writtenBundles]
  have hmem : ∀ n, n ∈ archiveEntries env ((referencedPaths env files).filter env.existsSync)
      ↔ ∃ p ∈ referencedPaths env files, env.existsSync p = true ∧ env.entryName p = n := by
    intro n
    simp only [archiveEntries, List.mem_toFinset, List.mem_map, List.mem_filter]
    constructor
    · rintro ⟨p, ⟨hp, hex⟩, hn⟩
      exact ⟨p, hp, hex, hn⟩
    · rintro ⟨p, hp, hex, hn⟩
      exact ⟨p, ⟨hp, hex⟩, hn⟩
  have hlen : (referencedPaths env files).length = files.length := by
    unfold referencedPaths
    clear hok hnone hrun hbundle hadd hmem
    induction files with
    | nil => rfl
    | cons f rest ih =>
      obtain ⟨name, hname⟩ := hrefs f (List.mem_cons_self _ _)
      have hpath : refPath env f = some (pathJoin [env.uploadsDir, basename name]) := by
        simp [refPath, hname]
      simp [List.filterMap_cons, hpath, ih (fun g hg => hrefs g (List.mem_cons_of_mem _ hg))]
  refine ⟨by rw [hrun], hbundle, hmem, ?_⟩
  intro hall hnodup
  constructor
  · intro p hp
    exact (hmem _).mpr ⟨p, hp, hall p hp, rfl⟩
  · rw [List.filter_eq_self.mpr hall, archiveEntries, List.toFinset_card_of_nodup hnodup,
      List.length_map, hlen]

theorem createImagesZip_bundles_existing_files_witness :
    (createImagesZip studioEnv fiveRefs).1 = .ok (zipPath studioEnv, zipName studioEnv)
      ∧ writtenBundles (createImagesZip studioEnv fiveRefs).2
          = [archiveEntries studioEnv
              ((referencedPaths studioEnv fiveRefs).filter studioEnv.existsSync)]
      ∧ (∀ p ∈ referencedPaths studioEnv fiveRefs,
            studioEnv.entryName p ∈ archiveEntries studioEnv
              ((referencedPaths studioEnv fiveRefs).filter studioEnv.existsSync))
      ∧ (archiveEntries studioEnv
            ((referencedPaths studioEnv fiveRefs).filter studioEnv.existsSync)).card
          = fiveRefs.length :=
  have h := createImagesZip_bundles_existing_files studioEnv fiveRefs
    (by
      intro f hf
      simp only [fiveRefs, List.mem_cons, List.mem_singleton, List.not_mem_nil, or_false] at hf
      rcases hf with rfl | rfl | rfl | rfl | rfl <;> exact ⟨_, rfl⟩)
    (fun _ _ _ => rfl) (fun _ => rfl)
  ⟨h.1, h.2.1, (h.2.2.2 (by decide) (by decide)).1, (h.2.2.2 (by decide) (by decide)).2⟩

/-! ### Scratch paths of different jobs -/

theorem splitSlashAux_append (a b cur : List Char) :
    splitSlashAux cur (a ++ '/' :: b) = splitSlashAux cur a ++ splitSlashAux [] b := by
  induction a generalizing cur with
  | nil => simp [splitSlashAux]
  | cons c a ih =>
    by_cases hc : c = '/'
    · simp [splitSlashAux, hc, ih]
    · simp [splitSlashAux, hc, ih]

theorem splitSlashAux_of_no_slash (a cur : List Char) (h : '/' ∉ a) :
    splitSlashAux cur a = [cur.reverse ++ a] := by
  induction a generalizing cur with
  | nil => simp [splitSlashAux]
  | cons c a ih =>
    have hc : c ≠ '/' := fun hc => h (by simp [hc])
    have ha : '/' ∉ a := fun ha => h (List.mem_cons_of_mem _ ha)
    simp [splitSlashAux, hc, ih _ ha]

theorem splitSlashAux_no_slash (cs cur : List Char) (hcur : '/' ∉ cur) :
    ∀ s ∈ splitSlashAux cur cs, '/' ∉ s := by
  induction cs generalizing cur with
  | nil =>
    intro s hs
    simp [splitSlashAux] at hs
    subst hs
    simpa using hcur
  | cons c cs ih =>
    intro s hs
    by_cases hc : c = '/'
    · simp only [splitSlashAux, hc, if_true, List.mem_cons] at hs
      rcases hs with rfl | hs
      · simpa using hcur
      · exact ih [] (by simp) s hs
    · simp only [splitSlashAux, hc, if_false] at hs
      refine ih (c :: cur) ?_ s hs
      intro hmem
      rcases List.mem_cons.mp hmem with h | h
      · exact hc h.symm
      · exact hcur h

theorem splitSlash_append (a b : List Char) :
    splitSlash (a ++ '/' :: b) = splitSlash a ++ splitSlash b :=
  splitSlashAux_append a b []

theorem splitSlash_of_no_slash (a : List Char) (h : '/' ∉ a) : splitSlash a = [a] := by
  simpa [splitSlash] using splitSlashAux_of_no_slash a [] h

theorem joinSlash_cons_cons (s s' : List Char) (rest : List (List Char)) :
    joinSlash (s :: s' :: rest) = s ++ '/' :: joinSlash (s' :: rest) := by
  simp [joinSlash]

theorem splitSlash_joinSlash (segs : List (List Char)) (hne : segs ≠ [])
    (h : ∀ s ∈ segs, '/' ∉ s) : splitSlash (joinSlash segs) = segs := by
  induction segs with
  | nil => exact absurd rfl hne
  | cons s rest ih =>
    cases rest with
    | nil => simpa [joinSlash] using splitSlash_of_no_slash s (h s (by simp))
    | cons s' rest' =>
      have hrest := ih (by simp) (fun t ht => h t (List.mem_cons_of_mem _ ht))
      rw [joinSlash_cons_cons, splitSlash_append, splitSlash_of_no_slash s (h s (by simp)), hrest]
      rfl

theorem joinSlash_snoc (segs : List (List Char)) (x : List Char) (hne : segs ≠ []) :
    joinSlash (segs ++ [x]) = joinSlash segs ++ '/' :: x := by
  induction segs with
  | nil => exact absurd rfl hne
  | cons s rest ih =>
    cases rest with
    | nil => simp [joinSlash]
    | cons s' rest' =>
      have hrest := ih (by simp)
      simp only [List.cons_append] at hrest ⊢
      rw [joinSlash_cons_cons, hrest, joinSlash_cons_cons]
      simp

theorem joinSlash_head (s : List Char) (rest : List (List Char)) (hs : s ≠ []) :
    (joinSlash (s :: rest)).head? = s.head? := by
  cases rest with
  | nil => rfl
  | cons s' rest' =>
    rw [joinSlash_cons_cons]
    cases s with
    | nil => exact absurd rfl hs
    | cons c cs => rfl

theorem normalizeSegments_skip (a : Bool) (seg : List Char) (rest kept : List (List Char))
    (h : seg = [] ∨ seg = ['.']) :
    normalizeSegments a (seg :: rest) kept = normalizeSegments a rest kept := by
  cases kept <;> (rw [normalizeSegments]; simp only [h, if_true])

theorem normalizeSegments_push (a : Bool) (seg : List Char) (rest kept : List (List Char))
    (h1 : seg ≠ []) (h2 : seg ≠ ['.']) (h3 : seg ≠ ['.', '.']) :
    normalizeSegments a (seg :: rest) kept = normalizeSegments a rest (seg :: kept) := by
  cases kept <;> (rw [normalizeSegments]; simp only [h1, h2, h3, or_self, if_false])

theorem normalizeSegments_dotdot_nil_of (a : Bool) (seg : List Char) (rest : List (List Char))
    (h : seg = ['.', '.']) :
    normalizeSegments a (seg :: rest) []
      = normalizeSegments a rest (if a then [['.', '.']] else []) := by
  rw [normalizeSegments]
  simp [h]

theorem normalizeSegments_dotdot_cons_of (a : Bool) (seg top : List Char)
    (rest below : List (List Char)) (h : seg = ['.', '.']) :
    normalizeSegments a (seg :: rest) (top :: below)
      = if top = ['.', '.'] then
          normalizeSegments a rest (if a then ['.', '.'] :: top :: below else top :: below)
        else normalizeSegments a rest below := by
  rw [normalizeSegments]
  simp [h]

theorem normalizeSegments_dotdot_nil (a : Bool) (rest : List (List Char)) :
    normalizeSegments a (['.', '.'] :: rest) []
      = normalizeSegments a rest (if a then [['.', '.']] else []) :=
  normalizeSegments_dotdot_nil_of a _ rest rfl

theorem normalizeSegments_dotdot_cons (a : Bool) (top : List Char)
    (rest below : List (List Char)) :
    normalizeSegments a (['.', '.'] :: rest) (top :: below)
      = if top = ['.', '.'] then
          normalizeSegments a rest (if a then ['.', '.'] :: top :: below else top :: below)
        else normalizeSegments a rest below :=
  normalizeSegments_dotdot_cons_of a _ top rest below rfl

theorem normalizeSegments_ordinary (a : Bool) (segs kept : List (List Char))
    (h : ∀ s ∈ segs, Ordinary s) : normalizeSegments a segs kept = kept.reverse ++ segs := by
  induction segs generalizing kept with
  | nil => simp [normalizeSegments]
  | cons s rest ih =>
    obtain ⟨h1, h2, h3, _⟩ := h s (List.mem_cons_self _ _)
    rw [normalizeSegments_push a s rest kept h1 h2 h3,
      ih (s :: kept) (fun t ht => h t (List.mem_cons_of_mem _ ht))]
    simp

theorem normalizeSegments_of_normal (a : Bool) (segs kept : List (List Char))
    (h : NormalSegs a segs) (hkept : ∀ u ∈ kept, u = ['.', '.']) :
    normalizeSegments a segs kept = kept.reverse ++ segs := by
  induction segs generalizing kept with
  | nil => simp [normalizeSegments]
  | cons s rest ih =>
    rcases h with ⟨hs, ha, hrest⟩ | ⟨hs, hrest⟩
    · subst hs
      subst ha
      cases kept with
      | nil =>
        rw [normalizeSegments_dotdot_nil]
        simp only [if_true]
        rw [ih _ hrest (by simp)]
        simp
      | cons top below =>
        have htop : top = ['.', '.'] := hkept top (List.mem_cons_self _ _)
        subst htop
        rw [normalizeSegments_dotdot_cons]
        simp only [if_true]
        rw [ih _ hrest (by
          intro u hu
          rcases List.mem_cons.mp hu with h | h
          · exact h
          · exact hkept u h)]
        simp
    · exact normalizeSegments_ordinary a (s :: rest) kept (by
        intro t ht
        rcases List.mem_cons.mp ht with h | h
        · rw [h]; exact hs
        · exact hrest t h)

theorem normalizeSegments_snoc (a : Bool) (segs kept : List (List Char)) (x : List Char)
    (h1 : x ≠ []) (h2 : x ≠ ['.']) (h3 : x ≠ ['.', '.']) :
    normalizeSegments a (segs ++ [x]) kept = normalizeSegments a segs kept ++ [x] := by
  induction segs generalizing kept with
  | nil =>
    rw [List.nil_append, normalizeSegments_push a x [] kept h1 h2 h3]
    simp [normalizeSegments]
  | cons seg rest ih =>
    rw [List.cons_append]
    by_cases hskip : seg = [] ∨ seg = ['.']
    · rw [normalizeSegments_skip a seg _ kept hskip, normalizeSegments_skip a seg _ kept hskip, ih]
    · by_cases hdd : seg = ['.', '.']
      · subst hdd
        cases kept with
        | nil => rw [normalizeSegments_dotdot_nil, normalizeSegments_dotdot_nil, ih]
        | cons top below =>
          rw [normalizeSegments_dotdot_cons, normalizeSegments_dotdot_cons]
          split
          · rw [ih]
          · rw [ih]
      · have hne : seg ≠ [] := fun h => hskip (Or.inl h)
        have hdot : seg ≠ ['.'] := fun h => hskip (Or.inr h)
        rw [normalizeSegments_push a seg _ kept hne hdot hdd,
          normalizeSegments_push a seg _ kept hne hdot hdd, ih]

theorem normalSegs_snoc (a : Bool) (segs : List (List Char)) (x : List Char)
    (h : NormalSegs a segs) (hx : Ordinary x) : NormalSegs a (segs ++ [x]) := by
  induction segs with
  | nil => exact Or.inr ⟨hx, by simp⟩
  | cons s rest ih =>
    rcases h with ⟨hs, ha, hrest⟩ | ⟨hs, hrest⟩
    · exact Or.inl ⟨hs, ha, ih hrest⟩
    · refine Or.inr ⟨hs, ?_⟩
      intro t ht
      rcases List.mem_append.mp ht with h | h
      · exact hrest t h
      · rw [List.mem_singleton.mp h]; exact hx

theorem normalSegs_of_all_dotdot (segs : List (List Char))
    (h : ∀ u ∈ segs, u = ['.', '.']) : NormalSegs true segs := by
  induction segs with
  | nil => trivial
  | cons s rest ih =>
    exact Or.inl ⟨h s (List.mem_cons_self _ _), rfl,
      ih (fun u hu => h u (List.mem_cons_of_mem _ hu))⟩

theorem normalSegs_of_stack (a : Bool) (kept : List (List Char)) (h : StackOK a kept) :
    NormalSegs a kept.reverse := by
  induction kept with
  | nil => trivial
  | cons t below ih =>
    rw [List.reverse_cons]
    rcases h with ⟨ht, ha, hbelow⟩ | ⟨ht, hbelow⟩
    · subst ha
      apply normalSegs_of_all_dotdot
      intro u hu
      rcases List.mem_append.mp hu with h | h
      · exact hbelow u (List.mem_reverse.mp h)
      · rw [List.mem_singleton.mp h]; exact ht
    · exact normalSegs_snoc a _ t (ih hbelow) ht

theorem normalizeSegments_normal (a : Bool) (segs kept : List (List Char))
    (hkept : StackOK a kept) (hsegs : ∀ s ∈ segs, '/' ∉ s) :
    NormalSegs a (normalizeSegments a segs kept) := by
  induction segs generalizing kept with
  | nil =>
    rw [normalizeSegments]
    exact normalSegs_of_stack a kept hkept
  | cons seg rest ih =>
    have hrest : ∀ s ∈ rest, '/' ∉ s := fun s hs => hsegs s (List.mem_cons_of_mem _ hs)
    by_cases hskip : seg = [] ∨ seg = ['.']
    · rw [normalizeSegments_skip a seg _ kept hskip]
      exact ih kept hkept hrest
    · by_cases hdd : seg = ['.', '.']
      · subst hdd
        cases kept with
        | nil =>
          rw [normalizeSegments_dotdot_nil]
          refine ih _ ?_ hrest
          cases a with
          | true => exact Or.inl ⟨rfl, rfl, by simp⟩
          | false => trivial
        | cons top below =>
          rw [normalizeSegments_dotdot_cons]
          by_cases htop : top = ['.', '.']
          · simp only [htop, if_true]
            refine ih _ ?_ hrest
            rcases hkept with ⟨_, ha, hbelow⟩ | ⟨hord, _⟩
            · subst ha
              refine Or.inl ⟨rfl, rfl, ?_⟩
              intro u hu
              rcases List.mem_cons.mp hu with h | h
              · exact h
              · exact hbelow u h
            · exact absurd htop hord.2.2.1
          · simp only [htop, if_false]
            refine ih _ ?_ hrest
            rcases hkept with ⟨ht, _, _⟩ | ⟨_, hbelow⟩
            · exact absurd ht htop
            · exact hbelow
      · have hne : seg ≠ [] := fun h => hskip (Or.inl h)
        have hdot : seg ≠ ['.'] := fun h => hskip (Or.inr h)
        rw [normalizeSegments_push a seg _ kept hne hdot hdd]
        exact ih _ (Or.inr ⟨⟨hne, hdot, hdd, hsegs seg (List.mem_cons_self _ _)⟩, hkept⟩) hrest

theorem normalSegs_mem (a : Bool) (segs : List (List Char)) (h : NormalSegs a segs) :
    ∀ s ∈ segs, s ≠ [] ∧ '/' ∉ s := by
  induction segs with
  | nil => intro s hs; cases hs
  | cons t rest ih =>
    intro s hs
    rcases h with ⟨ht, _, hrest⟩ | ⟨ht, hrest⟩
    · rcases List.mem_cons.mp hs with h | h
      · rw [h, ht]; decide
      · exact ih hrest s h
    · rcases List.mem_cons.mp hs with h | h
      · rw [h]; exact ⟨ht.1, ht.2.2.2⟩
      · exact ⟨(hrest s h).1, (hrest s h).2.2.2⟩

theorem posixNormalize_data (path : String) (hne : path.data ≠ [])
    (htrail : path.data.getLast? ≠ some '/')
    (hsegs : joinSlash (normalizeSegments (!decide (path.data.head? = some '/'))
      (splitSlash path.data) []) ≠ []) :
    (posixNormalize path).data
      = (if path.data.head? = some '/' then ['/'] else [])
          ++ joinSlash (normalizeSegments (!decide (path.data.head? = some '/'))
              (splitSlash path.data) []) := by
  have hp : path ≠ "" := fun h => hne (by rw [h])
  unfold posixNormalize
  rw [if_neg hp]
  dsimp only
  rw [if_neg hsegs]
  by_cases habs : path.data.head? = some '/'
  · simp [habs, htrail]
  · simp [habs, htrail]

theorem joinSlash_ne_nil (a : Bool) (segs : List (List Char)) (hne : segs ≠ [])
    (h : NormalSegs a segs) : joinSlash segs ≠ [] := by
  cases segs with
  | nil => exact absurd rfl hne
  | cons s rest =>
    have hs := (normalSegs_mem a _ h s (List.mem_cons_self _ _)).1
    intro hnil
    have hhead := joinSlash_head s rest hs
    rw [hnil] at hhead
    cases s with
    | nil => exact hs rfl
    | cons c cs => cases hhead

theorem getLast?_append_ordinary (r x : List Char) (hx : x ≠ []) (hslash : '/' ∉ x) :
    (r ++ x).getLast? ≠ some '/' := by
  rw [List.getLast?_append_of_ne_nil r hx, List.getLast?_eq_getLast _ hx]
  intro h
  injection h with h
  exact hslash (h ▸ List.getLast_mem hx)

theorem normalPath_of_last_segment (q : String) (r x : List Char)
    (hq : q.data = r ++ '/' :: x) (hx : Ordinary x) : NormalPath (posixNormalize q) := by
  have hne : q.data ≠ [] := by rw [hq]; simp
  have htrail : q.data.getLast? ≠ some '/' := by
    rw [hq]
    have := getLast?_append_ordinary (r ++ ['/']) x hx.1 hx.2.2.2
    simpa using this
  have hsplit : splitSlash q.data = splitSlash r ++ [x] := by
    rw [hq, splitSlash_append, splitSlash_of_no_slash x hx.2.2.2]
  have hnorm : normalizeSegments (!decide (q.data.head? = some '/')) (splitSlash q.data) []
      = normalizeSegments (!decide (q.data.head? = some '/')) (splitSlash r) [] ++ [x] := by
    rw [hsplit, normalizeSegments_snoc _ _ _ x hx.1 hx.2.1 hx.2.2.1]
  have hnormal : NormalSegs (!decide (q.data.head? = some '/'))
      (normalizeSegments (!decide (q.data.head? = some '/')) (splitSlash q.data) []) :=
    normalizeSegments_normal _ _ [] trivial
      (splitSlashAux_no_slash q.data [] (by simp))
  have hsegne : normalizeSegments (!decide (q.data.head? = some '/')) (splitSlash q.data) []
      ≠ [] := by rw [hnorm]; simp
  refine ⟨decide (q.data.head? = some '/'), _, hsegne, hnormal, ?_⟩
  rw [posixNormalize_data q hne htrail (joinSlash_ne_nil _ _ hsegne hnormal)]
  by_cases habs : q.data.head? = some '/'
  · simp [habs]
  · simp [habs]

theorem posixNormalize_of_normal (cs : List Char) (isAbs : Bool) (segs : List (List Char))
    (hne : segs ≠ []) (hnormal : NormalSegs (!isAbs) segs)
    (hcs : cs = (if isAbs then ['/'] else []) ++ joinSlash segs) :
    posixNormalize (String.mk cs) = String.mk cs := by
  have hmem := normalSegs_mem _ segs hnormal
  have hjoin := joinSlash_ne_nil _ segs hne hnormal
  have hhead : decide (cs.head? = some '/') = isAbs := by
    cases isAbs with
    | true => rw [hcs]; simp
    | false =>
      rw [hcs]
      cases segs with
      | nil => exact absurd rfl hne
      | cons s rest =>
        have hs := hmem s (List.mem_cons_self _ _)
        have hh := joinSlash_head s rest hs.1
        cases hj : joinSlash (s :: rest) with
        | nil => exact absurd hj hjoin
        | cons c tl =>
          rw [hj] at hh
          cases s with
          | nil => exact absurd rfl hs.1
          | cons d ds =>
            simp only [List.head?_cons, Option.some.injEq] at hh
            have hd : d ≠ '/' := fun hd => hs.2 (by simp [hd])
            simp [hh, hd]
  have hlast : cs.getLast? ≠ some '/' := by
    rw [hcs]
    obtain ⟨front, x, hfx⟩ : ∃ front x, segs = front ++ [x] :=
      ⟨segs.dropLast, segs.getLast hne, (List.dropLast_append_getLast hne).symm⟩
    have hx := hmem x (by rw [hfx]; simp)
    by_cases hfront : front = []
    · subst hfront
      rw [hfx]
      simpa [joinSlash] using getLast?_append_ordinary (if isAbs then ['/'] else []) x hx.1 hx.2
    · rw [hfx, joinSlash_snoc front x hfront]
      have := getLast?_append_ordinary
        ((if isAbs then ['/'] else []) ++ joinSlash front ++ ['/']) x hx.1 hx.2
      simpa using this
  have hsplit : splitSlash cs = (if isAbs then [[]] else []) ++ segs := by
    rw [hcs]
    cases isAbs with
    | true =>
      have := splitSlash_append [] (joinSlash segs)
      simp only [List.nil_append] at this
      simp only [if_true, List.singleton_append]
      rw [this, splitSlash_joinSlash segs hne (fun s hs => (hmem s hs).2)]
      rfl
    | false =>
      show splitSlash ([] ++ joinSlash segs) = [] ++ segs
      exact splitSlash_joinSlash segs hne (fun s hs => (hmem s hs).2)
  have hnorm : normalizeSegments (!isAbs) (splitSlash cs) [] = segs := by
    rw [hsplit]
    cases isAbs with
    | true =>
      simp only [if_true, List.singleton_append]
      rw [normalizeSegments_skip _ [] _ _ (Or.inl rfl),
        normalizeSegments_of_normal _ segs [] hnormal (by simp)]
      rfl
    | false =>
      show normalizeSegments (!false) ([] ++ segs) [] = segs
      rw [List.nil_append, normalizeSegments_of_normal _ segs [] hnormal (by simp)]
      rfl
  have hcsne : cs ≠ [] := by
    rw [hcs]
    intro h
    exact hjoin (List.append_eq_nil.mp h).2
  apply String.ext
  have hdata := posixNormalize_data (String.mk cs) hcsne hlast (by
    show joinSlash (normalizeSegments (!decide (cs.head? = some '/')) (splitSlash cs) []) ≠ []
    rw [hhead, hnorm]; exact hjoin)
  rw [hdata]
  show (if cs.head? = some '/' then ['/'] else [])
    ++ joinSlash (normalizeSegments (!decide (cs.head? = some '/')) (splitSlash cs) []) = cs
  rw [hhead, hnorm]
  have hif : (if cs.head? = some '/' then ['/'] else ([] : List Char))
      = (if isAbs = true then ['/'] else []) := by
    rw [← hhead]
    simp
  rw [hif]
  exact hcs.symm

theorem pathJoin_normal (p n : String) (hp : NormalPath p) (hn : Ordinary n.data) :
    pathJoin [p, n] = p ++ "/" ++ n ∧ NormalPath (pathJoin [p, n]) := by
  obtain ⟨isAbs, segs, hne, hnormal, hdata⟩ := hp
  have hjoin := joinSlash_ne_nil _ segs hne hnormal
  have hp' : p ≠ "" := by
    intro h
    rw [h] at hdata
    exact hjoin (List.append_eq_nil.mp hdata.symm).2
  have hn' : n ≠ "" := by
    intro h
    rw [h] at hn
    exact hn.1 rfl
  have hsnoc : NormalSegs (!isAbs) (segs ++ [n.data]) := normalSegs_snoc _ segs _ hnormal hn
  have hcs : p.data ++ '/' :: n.data
      = (if isAbs then ['/'] else []) ++ joinSlash (segs ++ [n.data]) := by
    rw [hdata, joinSlash_snoc segs _ hne, List.append_assoc]
  have hrun : pathJoin [p, n] = String.mk (p.data ++ '/' :: n.data) := by
    have hunfold : pathJoin [p, n] = posixNormalize (String.mk (p.data ++ '/' :: n.data)) := by
      simp [pathJoin, hp', hn', joinSlash]
    rw [hunfold]
    exact posixNormalize_of_normal _ isAbs _ (by simp) hsnoc hcs
  constructor
  · rw [hrun]
    apply String.ext
    simp
  · exact ⟨isAbs, segs ++ [n.data], by simp, hsnoc, by rw [hrun]; exact hcs⟩

theorem tempDir_normal (env : WeightsEnv) : NormalPath (tempDir env) := by
  have htemp : Ordinary ['t', 'e', 'm', 'p'] := ⟨by decide, by decide, by decide, by decide⟩
  unfold tempDir
  by_cases hd : env.dirname = ""
  · have hunfold : pathJoin [env.dirname, "..", "temp"] = posixNormalize "../temp" := by
      rw [hd]; rfl
    rw [hunfold]
    exact normalPath_of_last_segment "../temp" ['.', '.'] ['t', 'e', 'm', 'p'] rfl htemp
  · have hunfold : pathJoin [env.dirname, "..", "temp"]
        = posixNormalize (String.mk (env.dirname.data ++ '/' :: '.' :: '.' :: '/'
            :: ['t', 'e', 'm', 'p'])) := by
      simp [pathJoin, hd, joinSlash]
    rw [hunfold]
    exact normalPath_of_last_segment _ (env.dirname.data ++ ['/', '.', '.'])
      ['t', 'e', 'm', 'p'] (by simp) htemp

theorem ordinary_of_plainName (id : String) (h : plainName id = true) (h1 : id ≠ ".")
    (h2 : id ≠ "..") : Ordinary id.data := by
  simp only [plainName, Bool.and_eq_true, decide_eq_true_eq] at h
  refine ⟨?_, ?_, ?_, h.2⟩
  · intro hnil
    exact h.1 (String.ext hnil)
  · intro hdot
    exact h1 (String.ext hdot)
  · intro hdd
    exact h2 (String.ext hdd)

theorem ordinary_tar (id : String) (h : Ordinary id.data) : Ordinary (id ++ ".tar").data := by
  have hdata : (id ++ ".tar").data = id.data ++ ['.', 't', 'a', 'r'] := rfl
  rw [hdata]
  refine ⟨by simp, ?_, ?_, ?_⟩
  · intro hh
    have := congrArg List.length hh
    simp at this
  · intro hh
    have := congrArg List.length hh
    simp at this
  · intro hmem
    rcases List.mem_append.mp hmem with hm | hm
    · exact h.2.2.2 hm
    · revert hm; decide

theorem extractDir_eq (env : WeightsEnv) (id : String) (h : Ordinary id.data) :
    extractDir env id = tempDir env ++ "/" ++ id :=
  (pathJoin_normal (tempDir env) id (tempDir_normal env) h).1

theorem tarPath_eq (env : WeightsEnv) (id : String) (h : Ordinary id.data) :
    tarPath env id = tempDir env ++ "/" ++ (id ++ ".tar") :=
  (pathJoin_normal (tempDir env) (id ++ ".tar") (tempDir_normal env) (ordinary_tar id h)).1

theorem prefix_snoc_eq (c : Char) (a b : List Char) (ha : c ∉ a) (hb : c ∉ b)
    (h : a ++ [c] <+: b ++ [c]) : a = b := by
  induction a generalizing b with
  | nil =>
    cases b with
    | nil => rfl
    | cons y b' =>
      simp only [List.nil_append, List.cons_append, List.cons_prefix_cons] at h
      exact absurd (by simp [h.1]) hb
  | cons x a' ih =>
    cases b with
    | nil =>
      simp only [List.nil_append, List.cons_append, List.cons_prefix_cons] at h
      exact absurd (by simp [h.1]) ha
    | cons y b' =>
      simp only [List.cons_append, List.cons_prefix_cons] at h
      rw [h.1, ih b' (fun hm => ha (List.mem_cons_of_mem _ hm))
        (fun hm => hb (List.mem_cons_of_mem _ hm)) h.2]

theorem usesPath_cases (env : WeightsEnv) (id p : String) (h : Ordinary id.data)
    (hp : usesPath env id p = true) :
    ∃ q, p.data = (tempDir env).data ++ '/' :: q
      ∧ (q = id.data ++ ['.', 't', 'a', 'r'] ∨ q = id.data ∨ id.data ++ ['/'] <+: q) := by
  have hE : (extractDir env id).data = (tempDir env).data ++ '/' :: id.data := by
    rw [extractDir_eq env id h]; simp
  have hA : (tarPath env id).data = (tempDir env).data ++ '/' :: (id.data ++ ['.', 't', 'a', 'r']) := by
    rw [tarPath_eq env id h]; simp
  have hlast : (extractDir env id).data.getLast? ≠ some '/' := by
    rw [hE]
    have := getLast?_append_ordinary ((tempDir env).data ++ ['/']) id.data h.1 h.2.2.2
    simpa using this
  simp only [usesPath, within, hlast, if_false, Bool.or_eq_true, decide_eq_true_eq,
    List.isPrefixOf_iff_prefix] at hp
  rcases hp with hp | hp | hp
  · exact ⟨_, by rw [hp, hA], Or.inl rfl⟩
  · exact ⟨_, by rw [hp, hE], Or.inr (Or.inl rfl)⟩
  · rw [hE] at hp
    obtain ⟨r, hr⟩ := hp
    refine ⟨id.data ++ '/' :: r, ?_, Or.inr (Or.inr ⟨r, by simp⟩)⟩
    rw [← hr]
    simp

theorem scratch_names_disjoint (i₁ i₂ q : List Char) (hs₁ : '/' ∉ i₁) (hs₂ : '/' ∉ i₂)
    (hne : i₁ ≠ i₂) (ht₁ : i₂ ≠ i₁ ++ ['.', 't', 'a', 'r'])
    (ht₂ : i₁ ≠ i₂ ++ ['.', 't', 'a', 'r'])
    (h₁ : q = i₁ ++ ['.', 't', 'a', 'r'] ∨ q = i₁ ∨ i₁ ++ ['/'] <+: q)
    (h₂ : q = i₂ ++ ['.', 't', 'a', 'r'] ∨ q = i₂ ∨ i₂ ++ ['/'] <+: q) : False := by
  have hslash : ∀ i : List Char, '/' ∉ i → '/' ∉ i ++ ['.', 't', 'a', 'r'] := by
    intro i hi hmem
    rcases List.mem_append.mp hmem with hm | hm
    · exact hi hm
    · revert hm; decide
  have hpre : ∀ a b : List Char, '/' ∉ b → ¬ (a ++ ['/'] <+: b) := by
    intro a b hb hab
    exact hb (hab.mem (by simp))
  rcases h₁ with h₁ | h₁ | h₁ <;> rcases h₂ with h₂ | h₂ | h₂
  · rw [h₁] at h₂
    exact hne ((List.append_left_inj _).mp h₂)
  · rw [h₁] at h₂
    exact ht₁ h₂.symm
  · rw [h₁] at h₂
    exact hpre _ _ (hslash i₁ hs₁) h₂
  · rw [h₁] at h₂
    exact ht₂ h₂
  · rw [h₁] at h₂
    exact hne h₂
  · rw [h₁] at h₂
    exact hpre _ _ hs₁ h₂
  · rw [h₂] at h₁
    exact hpre _ _ (hslash i₂ hs₂) h₁
  · rw [h₂] at h₁
    exact hpre _ _ hs₂ h₁
  · rcases List.prefix_or_prefix_of_prefix h₁ h₂ with h | h
    · exact hne (prefix_snoc_eq '/' i₁ i₂ hs₁ hs₂ h)
    · exact hne (prefix_snoc_eq '/' i₂ i₁ hs₂ hs₁ h).symm

/-- C11 (as stated, refuted): distinct plain names can share working paths.
The archive path of job `a` is the extraction directory of job `a.tar`; the
extraction directory of job `.` is the scratch root itself and that of job
`..` its parent, so both hold the archive of job `j1`. -/
theorem scratch_paths_shared_by_distinct_jobs :
    plainName "a" = true ∧ plainName "a.tar" = true ∧ "a" ≠ "a.tar"
      ∧ tarPath (healthyEnv nestedTree) "a" = "/app/temp/a.tar"
      ∧ extractDir (healthyEnv nestedTree) "a.tar" = "/app/temp/a.tar"
      ∧ usesPath (healthyEnv nestedTree) "a" "/app/temp/a.tar" = true
      ∧ usesPath (healthyEnv nestedTree) "a.tar" "/app/temp/a.tar" = true
      ∧ plainName "." = true ∧ plainName ".." = true ∧ plainName "j1" = true
      ∧ extractDir (healthyEnv nestedTree) "." = "/app/temp"
      ∧ extractDir (healthyEnv nestedTree) ".." = "/app"
      ∧ usesPath (healthyEnv nestedTree) "j1" "/app/temp/j1.tar" = true
      ∧ usesPath (healthyEnv nestedTree) "." "/app/temp/j1.tar" = true
      ∧ usesPath (healthyEnv nestedTree) ".." "/app/temp/j1.tar" = true := by
  decide

/-- C11 (amended): for two distinct job identifiers that are plain names
(non-empty, no path separator), neither of them `.` or `..` and neither being
the other followed by `.tar`, the extraction directory is `temp/<id>` and the
archive path `temp/<id>.tar` under the scratch root, and no path is a working
path of both jobs: the archive path and the extraction directory with
everything beneath it of one job are disjoint from those of the other. -/
theorem scratch_paths_disjoint (env : WeightsEnv) (id₁ id₂ : String) (hne : id₁ ≠ id₂)
    (h₁ : plainName id₁ = true) (h₂ : plainName id₂ = true)
    (hd₁ : id₁ ≠ "." ∧ id₁ ≠ "..") (hd₂ : id₂ ≠ "." ∧ id₂ ≠ "..")
    (ht₁ : id₂ ≠ id₁ ++ ".tar") (ht₂ : id₁ ≠ id₂ ++ ".tar") :
    extractDir env id₁ = tempDir env ++ "/" ++ id₁
      ∧ tarPath env id₁ = tempDir env ++ "/" ++ (id₁ ++ ".tar")
      ∧ extractDir env id₂ = tempDir env ++ "/" ++ id₂
      ∧ tarPath env id₂ = tempDir env ++ "/" ++ (id₂ ++ ".tar")
      ∧ ∀ p, ¬ (usesPath env id₁ p = true ∧ usesPath env id₂ p = true) := by
  have ho₁ := ordinary_of_plainName id₁ h₁ hd₁.1 hd₁.2
  have ho₂ := ordinary_of_plainName id₂ h₂ hd₂.1 hd₂.2
  refine ⟨extractDir_eq env id₁ ho₁, tarPath_eq env id₁ ho₁, extractDir_eq env id₂ ho₂,
    tarPath_eq env id₂ ho₂, ?_⟩
  rintro p ⟨hp₁, hp₂⟩
  obtain ⟨q₁, hq₁, hc₁⟩ := usesPath_cases env id₁ p ho₁ hp₁
  obtain ⟨q₂, hq₂, hc₂⟩ := usesPath_cases env id₂ p ho₂ hp₂
  have hq : q₁ = q₂ := by
    rw [hq₁] at hq₂
    have := List.append_cancel_left hq₂
    injection this
  subst hq
  exact scratch_names_disjoint id₁.data id₂.data q₁ ho₁.2.2.2 ho₂.2.2.2
    (fun h => hne (String.ext h))
    (fun h => ht₁ (String.ext h)) (fun h => ht₂ (String.ext h)) hc₁ hc₂

theorem scratch_paths_disjoint_witness :
    extractDir (healthyEnv nestedTree) "j1" = tempDir (healthyEnv nestedTree) ++ "/" ++ "j1"
      ∧ tarPath (healthyEnv nestedTree) "j1"
          = tempDir (healthyEnv nestedTree) ++ "/" ++ ("j1" ++ ".tar")
      ∧ extractDir (healthyEnv nestedTree) "j2" = tempDir (healthyEnv nestedTree) ++ "/" ++ "j2"
      ∧ tarPath (healthyEnv nestedTree) "j2"
          = tempDir (healthyEnv nestedTree) ++ "/" ++ ("j2" ++ ".tar")
      ∧ ∀ p, ¬ (usesPath (healthyEnv nestedTree) "j1" p = true
          ∧ usesPath (healthyEnv nestedTree) "j2" p = true) :=
  scratch_paths_disjoint (healthyEnv nestedTree) "j1" "j2" (by decide) (by decide) (by decide)
    ⟨by decide, by decide⟩ ⟨by decide, by decide⟩ (by decide) (by decide)

end Replicate
